import Mathlib

/-!
# reexporter: configuration decisions, the export registry and the exporter

A shallow embedding of the Go packages `config` (`filter.go`, `config.go`),
`exporter/exports` (`exports.go`, `export.go`, `comments.go`, `parameter.go`) and
`exporter` (`exporter.go`, `format.go`, `template.go`).

Conventions of the embedding:

* a Go `string` is a Lean `String`; where the source works on bytes (`len`,
  `strings.Compare`) the UTF-8 bytes of the string are used;
* a Go slice is a `List`;
* a Go `map[string]string` is `Option (AList ...)`: `none` is the nil map, which
  can be read but not written;
* a function that can stop with a runtime panic returns an `Option`, with `none`
  for the panic;
* functions of the Go standard library that the code calls are written out after
  their library source or documentation; the regular-expression engine, the
  Unicode upper-case table, the template engine, the formatter and the loading of
  packages are parameters;
* a node of the syntax tree carries what the library reports for it: a comment
  group its text, an expression its printed form; a value of type `any` is given
  by its dynamic type, and for a type other than `bool`, `int` and `string` by what
  `reflect` reports for it.
-/

namespace Reexporter

/-! ## Go strings -/

/-- The bytes of a string, as numbers below 256 (UTF-8). -/
def utf8Bytes (s : String) : List Nat :=
  s.data.flatMap (fun c => (String.utf8EncodeChar c).map UInt8.toNat)

/-- Go `len(s)` for a string: its number of bytes. -/
def len (s : String) : Nat := (utf8Bytes s).length

/-- Lexicographic three-way comparison of byte sequences. -/
def bytesCompare : List Nat → List Nat → Int
  | [], [] => 0
  | [], _ :: _ => -1
  | _ :: _, [] => 1
  | a :: as, b :: bs =>
    if a < b then -1 else if b < a then 1 else bytesCompare as bs

namespace strings

/-- Go `strings.Compare`: byte-wise lexicographic comparison, `-1`, `0` or `+1`. -/
def Compare (a b : String) : Int := bytesCompare (utf8Bytes a) (utf8Bytes b)

/-- Go `strings.HasPrefix`. -/
def HasPrefix (s p : String) : Bool := p.data.isPrefixOf s.data

/-- Go `strings.HasSuffix`. -/
def HasSuffix (s p : String) : Bool := p.data.isSuffixOf s.data

end strings

/-! ## Go maps -/

/-- Go `map[string]string`; `none` is the nil map. -/
abbrev GoMap := Option (AList (fun _ : String => String))

/-- The lookup `v, ok := m[k]`; reading the nil map finds nothing. -/
def GoMap.get (m : GoMap) (k : String) : Option String :=
  match m with
  | none => none
  | some a => a.lookup k

/-- The assignment `m[k] = v`; it panics on the nil map. -/
def GoMap.set (m : GoMap) (k v : String) : Option GoMap :=
  match m with
  | none => none
  | some a => some (some (a.insert k v))

/-- The entries a `range` loop over the map visits (none for the nil map). -/
def GoMap.entries (m : GoMap) : List (Sigma (fun _ : String => String)) :=
  match m with
  | none => []
  | some a => a.entries

namespace maps

/-- Go `maps.Copy(dst, src)`: `for k, v := range src { dst[k] = v }`. -/
def Copy (dst src : GoMap) : Option GoMap :=
  src.entries.foldl (fun acc kv => acc.bind (fun d => d.set kv.1 kv.2)) (some dst)

end maps

/-! ## `config/filter.go` -/

namespace config

/-- A compiled regular expression (`*regexp.Regexp`), given by what it matches. -/
structure Regexp where
  MatchString : String → Bool

/-- The struct `Filter`: `regex = none` is the nil pointer. -/
structure Filter where
  text : String
  regex : Option Regexp

/-- The zero value of `Filter`, which the YAML decoder fills in. -/
def Filter.zero : Filter := { text := "", regex := none }

/-- The method `Filter.Match`. -/
def Filter.Match (f : Filter) (s : String) : Bool :=
  match f.regex with
  | none => decide (s = f.text)
  | some re => re.MatchString s

/-- The slice expression `text[1 : len(text)-1]` of `UnmarshalText`: it is only taken
of a text that starts and ends with the one-byte character `/` and has more than two
bytes, where dropping the first and the last byte drops the first and the last
character. -/
def innerText (text : String) : String := String.mk text.data.tail.dropLast

/-- The method `Filter.UnmarshalText`, with `regexp.Compile` as the parameter `compile`.
It returns the receiver as it is left and the error (`none` for nil). -/
def Filter.UnmarshalText (compile : String → Except String Regexp) (f : Filter)
    (text : String) : Filter × Option String :=
  let f := { f with text := text }
  if strings.HasPrefix f.text "/" && strings.HasSuffix f.text "/" && decide (len f.text > 2) then
    match compile (innerText f.text) with
    | .ok re => ({ f with regex := some re }, none)
    | .error err => ({ f with regex := none }, some err)
  else (f, none)

/-! ## `config/config.go` -/

/-- The Go type `ExportType`, a string. -/
abbrev ExportType := String

def ExportTypeType : ExportType := "type"
def ExportTypeVariable : ExportType := "variable"
def ExportTypeConstant : ExportType := "constant"
def ExportTypeFunction : ExportType := "function"

/-- The struct `Exclusion`. -/
structure Exclusion where
  Types : Bool
  Variables : Bool
  Constants : Bool
  Functions : Bool
  Names : List Filter
  Files : List Filter

/-- The struct `Export` of package `config`. -/
structure Export where
  Import : String
  Output : String
  Exclude : Exclusion
  Rename : GoMap

/-- The struct `Config`. -/
structure Config where
  Common : Export
  Exports : List Export

/-- An identifier of the syntax tree (`ast.Ident`), by its name. -/
structure Ident where
  Name : String

/-- Go `token.IsExported`, which `ast.Ident.IsExported` calls: whether the first rune
of the name is upper case, `unicode.IsUpper` being the parameter `isUpper`. Decoding
the empty string gives the replacement rune. -/
def IsExported (isUpper : Char → Bool) (name : String) : Bool :=
  match name.data with
  | [] => isUpper (Char.ofNat 0xFFFD)
  | ch :: _ => isUpper ch

/-- The method `Export.IncludeFile`. -/
def Export.IncludeFile (es : Export) (fileName : String) : Bool :=
  !(es.Exclude.Files.any (fun f => f.Match fileName))

/-- The method `Export.ExportAs`; `name = none` is the nil identifier. -/
def Export.ExportAs (isUpper : Char → Bool) (es : Export) (name : Option Ident)
    (exportType : ExportType) : String × Bool :=
  match name with
  | none => ("", false)
  | some id =>
    if id.Name = "" || !(IsExported isUpper id.Name) then ("", false)
    else if (exportType == ExportTypeType && es.Exclude.Types) ||
        (exportType == ExportTypeVariable && es.Exclude.Variables) ||
        (exportType == ExportTypeConstant && es.Exclude.Constants) ||
        (exportType == ExportTypeFunction && es.Exclude.Functions) then (id.Name, false)
    else if es.Exclude.Names.any (fun f => f.Match id.Name) then (id.Name, false)
    else
      match es.Rename.get id.Name with
      | some renamed => (renamed, true)
      | none => (id.Name, true)

/-- What a call of `FromFile` ends with. -/
inductive Outcome (α : Type) where
  | ok (value : α)
  | err (e : String)
  | panic

/-- The body of the loop of `FromFile` for one entry `es`, with `common` for
`config.Common`: the merged entry, or `none` when `maps.Copy` panics. -/
def mergeEntry (common es : Export) : Option Export :=
  let es := { es with Exclude := { es.Exclude with
    Types := es.Exclude.Types || common.Exclude.Types } }
  let es := { es with Exclude := { es.Exclude with
    Variables := es.Exclude.Variables || common.Exclude.Variables } }
  let es := { es with Exclude := { es.Exclude with
    Constants := es.Exclude.Constants || common.Exclude.Constants } }
  let es := { es with Exclude := { es.Exclude with
    Functions := es.Exclude.Functions || common.Exclude.Functions } }
  let es := { es with Exclude := { es.Exclude with
    Names := es.Exclude.Names ++ common.Exclude.Names } }
  let es := { es with Exclude := { es.Exclude with
    Files := es.Exclude.Files ++ common.Exclude.Files } }
  let es := if es.Output = "" then { es with Output := common.Output } else es
  match maps.Copy es.Rename common.Rename with
  | none => none
  | some m => some { es with Rename := m }

/-- The loop `for i := range config.Exports` of `FromFile`: a panic in one entry ends
the whole loop. -/
def mergeLoop (common : Export) : List Export → Option (List Export)
  | [] => some []
  | es :: rest =>
    match mergeEntry common es with
    | none => none
    | some m =>
      match mergeLoop common rest with
      | none => none
      | some ms => some (m :: ms)

/-- The function `FromFile`; `unmarshalled` is what `os.ReadFile` followed by
`yaml.Unmarshal` gives for the path: the decoded configuration or the error of
either step. -/
def FromFile (unmarshalled : Except String Config) : Outcome Config :=
  match unmarshalled with
  | .error e => .err e
  | .ok config =>
    let config :=
      if config.Common.Output = "" then
        { config with Common := { config.Common with Output := "exported.go" } }
      else config
    match mergeLoop config.Common config.Exports with
    | none => .panic
    | some exports => .ok { config with Exports := exports }

end config

/-! ## Go `slices` -/

namespace slices

/-- The loop of Go `slices.BinarySearchFunc`, from the state `i`, `j`:
`for i < j { h := int(uint(i+j) >> 1); if cmp(x[h], target) < 0 { i = h + 1 } else { j = h } }`.
The loop runs at most `j - i` times, which `fuel` bounds; `j ≤ len(x)` keeps `x[h]`
in range. -/
def binarySearchLoop {E T : Type} (cmp : E → T → Int) (x : List E) (target : T) :
    (fuel i j : Nat) → j ≤ x.length → j - i ≤ fuel → Nat
  | 0, i, _, _, _ => i
  | fuel + 1, i, j, hj, hf =>
    if hij : i < j then
      if cmp (x.get ⟨(i + j) / 2, by omega⟩) target < 0 then
        binarySearchLoop cmp x target fuel ((i + j) / 2 + 1) j hj (by omega)
      else
        binarySearchLoop cmp x target fuel i ((i + j) / 2) (by omega) (by omega)
    else i

/-- Go `slices.BinarySearchFunc`: the position found and whether the element there
compares equal to the target (`i < n && cmp(x[i], target) == 0`). -/
def BinarySearchFunc {E T : Type} (x : List E) (target : T) (cmp : E → T → Int) :
    Nat × Bool :=
  let i := binarySearchLoop cmp x target x.length 0 x.length (Nat.le_refl _) (by omega)
  (i, match x[i]? with
      | some e => cmp e target == 0
      | none => false)

/-- Go `slices.Insert(s, i, v...)`: the values `v` put at index `i`; it panics when
`i > len(s)`. -/
def Insert {E : Type} (s : List E) (i : Nat) (v : List E) : Option (List E) :=
  if i ≤ s.length then some (s.take i ++ v ++ s.drop i) else none

end slices

/-! ## `exporter/exports` -/

namespace exports

/-- The struct `Comment`. -/
structure Comment where
  Doc : List String
  Line : String
deriving DecidableEq

/-- The struct `Export` of package `exports`. -/
structure Export where
  ExportName : String
  Name : String
  Package : String
  Comment : Comment
deriving DecidableEq

/-- The struct `Parameter`; the field `Type_` is the Go field `Type`. -/
structure Parameter where
  Name : String
  Type_ : String
  Variadic : Bool
deriving DecidableEq

/-- The struct `FunctionSignature`. -/
structure FunctionSignature where
  Types : List Parameter
  Parameters : List Parameter
  Results : List Parameter
deriving DecidableEq

/-- The struct `FunctionExport`. -/
structure FunctionExport where
  Export : Export
  Signature : FunctionSignature
deriving DecidableEq

/-- The struct `Exports`; `importsSet = none` is the nil map of the zero value. -/
structure Exports where
  Pkg : String
  Imports : List String
  Types : List Export
  Variables : List Export
  Constants : List Export
  Functions : List FunctionExport
  importsSet : Option (Finset String)
deriving DecidableEq

/-- The function `New`. -/
def New (pkg : String) : Exports :=
  { Pkg := pkg, Imports := [], Types := [], Variables := [], Constants := [],
    Functions := [], importsSet := some ∅ }

/-- The method `Exports.AddImport`. Reading the nil set finds nothing, and the write
that follows panics. -/
def Exports.AddImport (td : Exports) (importPath : String) : Option Exports :=
  match td.importsSet with
  | none => none
  | some set =>
    if importPath ∈ set then some td
    else some { td with importsSet := some (insert importPath set),
                        Imports := td.Imports ++ [importPath] }

/-- The function `insertSortedExport`. -/
def insertSortedExport (ts : List Export) (t : Export) : Option (List Export) :=
  let (i, _) := slices.BinarySearchFunc ts t
    (fun a b => strings.Compare a.ExportName b.ExportName)
  slices.Insert ts i [t]

/-- The method `Exports.AddType`. -/
def Exports.AddType (td : Exports) (exportName name pkg : String) (c : Comment) :
    Option Exports :=
  match insertSortedExport td.Types
      { ExportName := exportName, Name := name, Package := pkg, Comment := c } with
  | none => none
  | some ts => some { td with Types := ts }

/-- The method `Exports.AddVariable`. -/
def Exports.AddVariable (td : Exports) (exportName name pkg : String) (c : Comment) :
    Option Exports :=
  match insertSortedExport td.Variables
      { ExportName := exportName, Name := name, Package := pkg, Comment := c } with
  | none => none
  | some ts => some { td with Variables := ts }

/-- The method `Exports.AddConstant`. -/
def Exports.AddConstant (td : Exports) (exportName name pkg : String) (c : Comment) :
    Option Exports :=
  match insertSortedExport td.Constants
      { ExportName := exportName, Name := name, Package := pkg, Comment := c } with
  | none => none
  | some ts => some { td with Constants := ts }

/-- The method `Exports.AddFunction`. -/
def Exports.AddFunction (td : Exports) (exportName name pkg : String) (c : Comment)
    (sig : FunctionSignature) : Exports :=
  { td with Functions := td.Functions ++
      [{ Export := { ExportName := exportName, Name := name, Package := pkg, Comment := c },
         Signature := sig }] }

/-- One call of a method of the registry. -/
inductive Call where
  | AddImport (importPath : String)
  | AddType (exportName name pkg : String) (c : Comment)
  | AddVariable (exportName name pkg : String) (c : Comment)
  | AddConstant (exportName name pkg : String) (c : Comment)
  | AddFunction (exportName name pkg : String) (c : Comment) (sig : FunctionSignature)

/-- The registry after one call, `none` when the call panics. -/
def Exports.call (td : Exports) : Call → Option Exports
  | .AddImport p => td.AddImport p
  | .AddType e n p c => td.AddType e n p c
  | .AddVariable e n p c => td.AddVariable e n p c
  | .AddConstant e n p c => td.AddConstant e n p c
  | .AddFunction e n p c sig => some (td.AddFunction e n p c sig)

/-- The registry after a sequence of calls, made one after the other. -/
def Exports.calls (td : Exports) : List Call → Option Exports
  | [] => some td
  | c :: cs =>
    match td.call c with
    | none => none
    | some td => td.calls cs

/-- A list of records is non-decreasing by export name under `strings.Compare`, the
byte-wise lexicographic comparison: no record is above a later one. -/
def sortedByExportName (ts : List Export) : Prop :=
  ts.Pairwise (fun a b => strings.Compare a.ExportName b.ExportName ≤ 0)

instance : DecidablePred sortedByExportName :=
  fun ts => inferInstanceAs (Decidable (ts.Pairwise _))

/-- A sequence of paths with every occurrence of a path after its first removed. -/
def firstOccurrences : List String → List String
  | [] => []
  | p :: ps => p :: (firstOccurrences ps).filter (fun q => q ≠ p)

end exports

/-! ## More of the Go library: `strings`, `unicode`, `path/filepath`, `fmt` -/

namespace unicode

/-- Go `unicode.IsSpace`: the characters with the Unicode property White_Space. -/
def IsSpace (r : Char) : Bool :=
  let n := r.toNat
  (0x09 ≤ n && n ≤ 0x0D) || n == 0x20 || n == 0x85 || n == 0xA0 || n == 0x1680 ||
    (0x2000 ≤ n && n ≤ 0x200A) || n == 0x2028 || n == 0x2029 || n == 0x202F ||
    n == 0x205F || n == 0x3000

end unicode

namespace strings

/-- Go `strings.TrimSuffix`. -/
def TrimSuffix (s suffix : String) : String :=
  if HasSuffix s suffix then String.mk (s.data.take (s.data.length - suffix.data.length))
  else s

/-- Go `strings.CutPrefix`: the text after the prefix and `true`, or the text itself and
`false`. -/
def CutPrefix (s p : String) : String × Bool :=
  if HasPrefix s p then (String.mk (s.data.drop p.data.length), true) else (s, false)

/-- Go `strings.TrimSpace`: the text without its leading and trailing white space. -/
def TrimSpace (s : String) : String :=
  String.mk ((s.data.dropWhile unicode.IsSpace).reverse.dropWhile unicode.IsSpace).reverse

/-- The pieces of `rest` between the occurrences of the separator `sep` (not empty),
taken from the left without overlap; `cur` holds, reversed, the characters of the piece
that is being read and `skip` counts the characters of a found separator still to pass. -/
def splitChars (sep : List Char) : Nat → List Char → List Char → List String
  | _, cur, [] => [String.mk cur.reverse]
  | skip + 1, cur, _ :: cs => splitChars sep skip cur cs
  | 0, cur, c :: cs =>
    if sep.isPrefixOf (c :: cs) then
      String.mk cur.reverse :: splitChars sep (sep.length - 1) [] cs
    else splitChars sep 0 (c :: cur) cs

/-- Go `strings.Split`: with an empty separator the text is cut into its characters. -/
def Split (s sep : String) : List String :=
  if sep = "" then s.data.map String.singleton else splitChars sep.data 0 [] s.data

end strings

namespace filepath

/-- Go `filepath.Base` for the separator `/`: the last element of the path, after the
trailing separators are removed; `.` for the empty path and `/` for a path of
separators only. -/
def Base (path : String) : String :=
  if path = "" then "."
  else
    let stripped := (path.data.reverse.dropWhile (fun c => c == '/')).reverse
    let last := (stripped.reverse.takeWhile (fun c => c != '/')).reverse
    if last = [] then "/" else String.mk last

end filepath

namespace fmt

/-- The verb `%4d` and its like of Go `fmt.Sprintf` for a number that is not negative:
its decimal digits, with spaces before them up to the width. -/
def padInt (width n : Nat) : String :=
  String.mk (List.replicate (width - (Nat.repr n).length) ' ') ++ Nat.repr n

end fmt

/-! ## Go `go/ast` -/

namespace ast

/-- The struct `ast.CommentGroup`: its comments, and the text that its method `Text`
returns for them. -/
structure CommentGroup where
  List : List String
  Text : String

/-- An expression of the syntax tree (`ast.Expr`), by the text that `types.ExprString`
gives for it. -/
structure Expr where
  ExprString : String

/-- The struct `ast.Field`. -/
structure Field where
  Names : List config.Ident
  Type_ : Expr

/-- The struct `ast.FieldList`. -/
structure FieldList where
  List : List Field

/-- The struct `ast.FuncType`; `none` is the nil pointer of a list that is absent. -/
structure FuncType where
  TypeParams : Option FieldList
  Params : Option FieldList
  Results : Option FieldList

/-- The struct `ast.FuncDecl`; `Recv = none` is the nil receiver of a function that is
not a method. -/
structure FuncDecl where
  Doc : Option CommentGroup
  Recv : Option FieldList
  Name : Option config.Ident
  Type_ : FuncType

/-- The tokens a general declaration can have (`token.IMPORT`, `token.CONST`,
`token.TYPE`, `token.VAR`). -/
inductive Token where
  | IMPORT
  | CONST
  | TYPE
  | VAR
deriving DecidableEq

/-- The specifications of a general declaration (`ast.Spec`). -/
inductive Spec where
  | ImportSpec
  | TypeSpec (Name : Option config.Ident) (Comment : Option CommentGroup)
  | ValueSpec (Names : List (Option config.Ident)) (Comment : Option CommentGroup)

/-- The struct `ast.GenDecl`. -/
structure GenDecl where
  Doc : Option CommentGroup
  Tok : Token
  Specs : List Spec

/-- A node of the syntax tree (`ast.Node`) with its position: a general declaration, a
function declaration, or a node of another type. -/
inductive Node where
  | GenDecl (pos : Nat) (d : GenDecl)
  | FuncDecl (pos : Nat) (d : FuncDecl)
  | other (pos : Nat)

/-- The method `Pos` of a node. -/
def Node.Pos : Node → Nat
  | .GenDecl pos _ => pos
  | .FuncDecl pos _ => pos
  | .other pos => pos

end ast

/-! ## `exporter/exports`: comments and parameters -/

namespace exports

/-- The function `ParseComment`. -/
def ParseComment (doc lineComment : Option ast.CommentGroup) : Comment :=
  let c : Comment := { Doc := [], Line := "" }
  let c :=
    match lineComment with
    | some lc => if lc.List.length > 0 then { c with Line := strings.TrimSpace lc.Text } else c
    | none => c
  let c :=
    match doc with
    | some d =>
      if d.List.length > 0 then { c with Doc := strings.Split (strings.TrimSpace d.Text) "\n" }
      else c
    | none => c
  c

/-- The method `Parameter.Variable`. -/
def Parameter.Variable (p : Parameter) : String :=
  if p.Variadic then p.Name ++ "..." else p.Name

set_option linter.dupNamespace false in
/-- The method `Parameter.Parameter`; the builder `sb` is the text written so far. -/
def Parameter.Parameter (p : Parameter) : String :=
  let sb := ""
  let sb := if p.Name ≠ "" then sb ++ p.Name ++ " " else sb
  let sb := if p.Variadic then sb ++ "..." else sb
  let sb := sb ++ p.Type_
  sb

/-- The method `Parameter.String`. -/
def Parameter.String (p : exports.Parameter) : String := p.Parameter

/-- The function `parameterFromField`. -/
def parameterFromField (field : ast.Field) : List Parameter :=
  let names := field.Names
  let names := if field.Names.length = 0 then names ++ [{ Name := "" }] else names
  names.map (fun nameIdent =>
    let cut := strings.CutPrefix field.Type_.ExprString "..."
    { Name := nameIdent.Name, Type_ := cut.1, Variadic := cut.2 })

/-- The function `ParseFunctionSignature`. -/
def ParseFunctionSignature (decl : ast.FuncDecl) : FunctionSignature :=
  let sig : FunctionSignature := { Types := [], Parameters := [], Results := [] }
  let sig :=
    match decl.Type_.TypeParams with
    | some l => l.List.foldl
        (fun sig field => { sig with Types := sig.Types ++ parameterFromField field }) sig
    | none => sig
  let sig :=
    match decl.Type_.Params with
    | some l => l.List.foldl
        (fun sig field => { sig with Parameters := sig.Parameters ++ parameterFromField field })
        sig
    | none => sig
  let sig :=
    match decl.Type_.Results with
    | some l => l.List.foldl
        (fun sig field => { sig with Results := sig.Results ++ parameterFromField field }) sig
    | none => sig
  sig

end exports

/-! ## Go `reflect` and values of type `any` -/

namespace reflect

/-- The kinds of Go `reflect.Kind`. -/
inductive Kind where
  | Invalid | Bool | Int | Int8 | Int16 | Int32 | Int64
  | Uint | Uint8 | Uint16 | Uint32 | Uint64 | Uintptr
  | Float32 | Float64 | Complex64 | Complex128
  | Array | Chan | Func | Interface | Map | Pointer | Slice | String | Struct
  | UnsafePointer
deriving DecidableEq

end reflect

/-- A value of the Go type `any`, as a function that takes `...any` can tell it apart:
the nil interface, a value of the type `bool`, `int` or `string`, or a value of another
type, given by what `reflect` reports for it: its kind, whether `IsZero` holds for it
(for a number: whether it is `== 0`) and its length `Len` (for a slice, a map or an
array). -/
inductive Value where
  | nil
  | bool (v : Bool)
  | int (v : Int)
  | string (v : String)
  | other (kind : reflect.Kind) (isZero : Bool) (len : Nat)
deriving DecidableEq

/-- Go `reflect.ValueOf(v).IsValid()`: false for the nil interface only. -/
def Value.IsValid : Value → Bool
  | .nil => false
  | _ => true

/-- Go `reflect.ValueOf(v).Kind()`. -/
def Value.Kind : Value → reflect.Kind
  | .nil => reflect.Kind.Invalid
  | .bool _ => reflect.Kind.Bool
  | .int _ => reflect.Kind.Int
  | .string _ => reflect.Kind.String
  | .other kind _ _ => kind

/-- Go `reflect.ValueOf(v).IsZero()`, for a valid value. -/
def Value.IsZero : Value → Bool
  | .nil => true
  | .bool v => !v
  | .int v => v == 0
  | .string v => v == ""
  | .other _ isZero _ => isZero

/-- Go `reflect.ValueOf(v).Len()`, for a slice, a map, an array or a string. -/
def Value.Len : Value → Nat
  | .string v => len v
  | .other _ _ n => n
  | _ => 0

/-- The conversion `string(b)` of a byte `b`: the text of the character with that
number. -/
def byteToString (b : Nat) : String := String.singleton (Char.ofNat b)

/-! ## Package `exporter` -/

namespace exporter

/-! ### `format.go` -/

/-- A Go `error`: a `*FormatterError`, or an error of another package, given by the
text that its method `Error` returns and, when it wraps an error (as the
`template.ExecError` of a failed template execution does), by the error that its
method `Unwrap` returns; `other` is an error that wraps none. -/
inductive GoError where
  | other (message : String)
  | wrapping (message : String) (wrapped : GoError)
  | FormatterError (OrigErr : GoError) (Code : String)
deriving DecidableEq

/-- The method `Error`; for a `*FormatterError` it is `FormatterError.Error`, with the
builder `sb` as the text written so far. -/
def GoError.Error : GoError → String
  | .other message => message
  | .wrapping message _ => message
  | .FormatterError OrigErr Code =>
    let sb := ""
    let sb := sb ++ ("Error formatting generated code: " ++ OrigErr.Error ++ "\n")
    (strings.Split Code "\n").enum.foldl
      (fun sb nl => sb ++ ("  " ++ fmt.padInt 4 (nl.1 + 1) ++ ": " ++ nl.2 ++ "\n")) sb

/-- The method `Unwrap`: for a `*FormatterError` it is `FormatterError.Unwrap`, for an
error of another package the error it wraps, `none` when it wraps none. -/
def GoError.Unwrap : GoError → Option GoError
  | .other _ => none
  | .wrapping _ wrapped => some wrapped
  | .FormatterError OrigErr _ => some OrigErr

/-- The function `formatCode`, with `imports.Process` as the parameter `process`. It
returns the text and the error (`none` for nil). -/
def formatCode (process : String → Except GoError String) (code : String) :
    String × Option GoError :=
  match process code with
  | .error err => ("", some (GoError.FormatterError err code))
  | .ok formatted => (formatted, none)

/-! ### `template.go` -/

/-- The function `renderTemplate`, with the execution of the parsed template as the
parameter `execute`: the text it writes, or its error. -/
def renderTemplate (execute : exports.Exports → Except GoError String)
    (data : exports.Exports) : String × Option GoError :=
  match execute data with
  | .error err => ("", some err)
  | .ok text => (text, none)

/-- The function `templateParenthesize`, with `fmt.Sprintf("%v", ·)` as the parameter
`sprint`; `none` is the panic of an index out of range. -/
def templateParenthesize (sprint : Value → String) (params : List Value) : Option String :=
  if params.length = 0 || params.length > 3 then some ""
  else
    let parentheses :=
      if params.length > 1 then
        match params[0]? with
        | some (Value.string v) => v
        | _ => "()"
      else "()"
    let condition :=
      if params.length > 2 then
        match params[1]? with
        | some (Value.bool v) => v
        | some (Value.int v) => v != 0
        | some (Value.string v) => v != ""
        | some v =>
          let condition := v.IsValid && !v.IsZero
          if v.Kind = reflect.Kind.Slice ∨ v.Kind = reflect.Kind.Map ∨
              v.Kind = reflect.Kind.Array then
            v.Len != 0
          else condition
        | none => true
      else true
    let s :=
      match params[params.length - 1]? with
      | some (Value.string str) => str
      | some last => sprint last
      | none => ""
    if !condition then some s
    else
      match (utf8Bytes parentheses)[0]?, (utf8Bytes parentheses)[1]? with
      | some b0, some b1 => some (byteToString b0 ++ s ++ byteToString b1)
      | _, _ => none

/-- The condition of `templateParenthesize` in the words of its description: a boolean
holds when it is true, a number when it is not 0, a string when it is not empty, a
slice, a map or an array when its length is not 0, the nil value never, and any other
value when it is not the zero value. -/
def conditionHolds : Value → Bool
  | .nil => false
  | .bool v => v
  | .int v => decide (v ≠ 0)
  | .string v => decide (v ≠ "")
  | .other kind isZero n =>
    if kind = reflect.Kind.Slice ∨ kind = reflect.Kind.Map ∨ kind = reflect.Kind.Array then
      decide (n ≠ 0)
    else !isZero

/-! ### `exporter.go` -/

/-- The variable `ErrLoadingPackages`. -/
def ErrLoadingPackages : GoError := GoError.other "failed to load packages"

/-- The file set (`*token.FileSet`): the name of the file that holds a position, `none`
when no file of the set does. -/
abbrev FileSet := Nat → Option String

/-- The struct `packages.Package`, by its identifier. -/
structure Package where
  ID : String

/-- The loop over `s.Names` of `inspectAST` for a value specification with the line
comment `comment` in the declaration `n`, from the registry `data`; `none` is a
panic. -/
def inspectNames (isUpper : Char → Bool) (pkg : Package) (export_ : config.Export)
    (n : ast.GenDecl) (comment : Option ast.CommentGroup) :
    List (Option config.Ident) → exports.Exports → Option exports.Exports
  | [], data => some data
  | nameIdent :: rest, data =>
    let exportType :=
      if n.Tok = ast.Token.CONST then config.ExportTypeConstant
      else config.ExportTypeVariable
    let (name, ok) := export_.ExportAs isUpper nameIdent exportType
    if ok then
      match nameIdent with
      | none => none
      | some id =>
        if exportType == config.ExportTypeVariable then
          match data.AddVariable name id.Name (filepath.Base pkg.ID)
              (exports.ParseComment n.Doc comment) with
          | none => none
          | some data => inspectNames isUpper pkg export_ n comment rest data
        else if exportType == config.ExportTypeConstant then
          match data.AddConstant name id.Name (filepath.Base pkg.ID)
              (exports.ParseComment n.Doc comment) with
          | none => none
          | some data => inspectNames isUpper pkg export_ n comment rest data
        else inspectNames isUpper pkg export_ n comment rest data
    else inspectNames isUpper pkg export_ n comment rest data

/-- The loop over `n.Specs` of `inspectAST` for the general declaration `n`, from the
registry `data`; `none` is a panic. -/
def inspectSpecs (isUpper : Char → Bool) (pkg : Package) (export_ : config.Export)
    (n : ast.GenDecl) : List ast.Spec → exports.Exports → Option exports.Exports
  | [], data => some data
  | spec :: rest, data =>
    match spec with
    | .TypeSpec sName sComment =>
      let (name, ok) := export_.ExportAs isUpper sName config.ExportTypeType
      if ok then
        match sName with
        | none => none
        | some id =>
          match data.AddType name id.Name (filepath.Base pkg.ID)
              (exports.ParseComment n.Doc sComment) with
          | none => none
          | some data => inspectSpecs isUpper pkg export_ n rest data
      else inspectSpecs isUpper pkg export_ n rest data
    | .ValueSpec sNames sComment =>
      match inspectNames isUpper pkg export_ n sComment sNames data with
      | none => none
      | some data => inspectSpecs isUpper pkg export_ n rest data
    | .ImportSpec => inspectSpecs isUpper pkg export_ n rest data

/-- The method `Exporter.inspectAST`, on the registry `data` (`e.data`) and the file set
`fset` (`e.fset`): the registry it leaves and the boolean it returns, or `none` for a
panic. `n = none` is the nil node. -/
def inspectAST (isUpper : Char → Bool) (fset : FileSet) (data : exports.Exports)
    (pkg : Package) (export_ : config.Export) (n : Option ast.Node) :
    Option (exports.Exports × Bool) :=
  match n with
  | none => some (data, true)
  | some n =>
    match fset n.Pos with
    | none => none
    | some fn =>
      let fn := strings.TrimSuffix (filepath.Base fn) ".go"
      if !export_.IncludeFile fn then some (data, true)
      else
        match n with
        | .GenDecl _ d =>
          match inspectSpecs isUpper pkg export_ d d.Specs data with
          | none => none
          | some data => some (data, false)
        | .FuncDecl _ d =>
          let (name, ok) := export_.ExportAs isUpper d.Name config.ExportTypeFunction
          if ok && d.Recv.isNone then
            match d.Name with
            | none => none
            | some id =>
              some (data.AddFunction name id.Name (filepath.Base pkg.ID)
                (exports.ParseComment d.Doc none) (exports.ParseFunctionSignature d), false)
          else some (data, false)
        | .other _ => some (data, true)

/-- The records that a declaration with the documentation `doc` owes for the names
`names` of a specification with the line comment `comment`: one for every name that
`ExportAs` accepts under the kind `kind`, in the order of the names, with the name that
`ExportAs` returns as the export name and the declared name as the original name. -/
def acceptedRecords (isUpper : Char → Bool) (pkg : Package) (export_ : config.Export)
    (doc : Option ast.CommentGroup) (kind : config.ExportType)
    (names : List config.Ident) (comment : Option ast.CommentGroup) : List exports.Export :=
  names.filterMap (fun id =>
    if (export_.ExportAs isUpper (some id) kind).2 then
      some { ExportName := (export_.ExportAs isUpper (some id) kind).1, Name := id.Name,
             Package := filepath.Base pkg.ID,
             Comment := exports.ParseComment doc comment }
    else none)

/-- The struct `Exporter`, without the registry and the file set that `Generate`
creates. -/
structure Exporter where
  Exports : List config.Export
  Dir : String
  PkgName : String

/-- The loop over `e.Exports` of `Generate`: the registry it leaves and the first
error. The method `processExport`, which loads the packages of an entry from the file
system and inspects their syntax trees, is the parameter `processExport`: the registry
it leaves and its error. -/
def processExports
    (processExport : exports.Exports → config.Export → exports.Exports × Option GoError) :
    List config.Export → exports.Exports → exports.Exports × Option GoError
  | [], data => (data, none)
  | export_ :: rest, data =>
    match processExport data export_ with
    | (data, some err) => (data, some err)
    | (data, none) => processExports processExport rest data

/-- The method `Exporter.Generate`: the text and the error it returns (`none` for
nil). -/
def Exporter.Generate
    (processExport : exports.Exports → config.Export → exports.Exports × Option GoError)
    (execute : exports.Exports → Except GoError String)
    (process : String → Except GoError String) (e : Exporter) : String × Option GoError :=
  let data := exports.New (filepath.Base e.PkgName)
  match processExports processExport e.Exports data with
  | (_, some err) => ("", some err)
  | (data, none) =>
    match renderTemplate execute data with
    | (_, some err) => ("", some err)
    | (codeStr, none) =>
      match formatCode process codeStr with
      | (_, some err) => ("", some err)
      | (formatted, none) => (formatted, none)

end exporter

/-! ## `templateMapProperty` and what `reflect` sees of its input -/

namespace reflect

/-- A field of a struct as `FieldByName` finds it: its name, whether it is exported
(`Interface` panics on the value of a field that is not) and its value. -/
structure StructField where
  Name : String
  exported : Bool
  value : Value
deriving DecidableEq

/-- A method of a struct as `MethodByName` finds it: its name, the numbers of its
parameters and results (`NumIn`, `NumOut`), and the first result of a call without
arguments. -/
structure Method where
  Name : String
  NumIn : Nat
  NumOut : Nat
  result : Value
deriving DecidableEq

/-- A value as the loop of `templateMapProperty` tells it apart by its kind: a map, with
whether a string can be assigned to its key type (`MapIndex` panics otherwise) and its
entries under string keys; a struct, with its fields and methods; or a value of another
kind. An element of a slice whose element type is an interface, such as `[]any`, has the
kind `Interface`. -/
inductive Record where
  | map (stringKeys : Bool) (entries : List (String × Value))
  | struct (fields : List StructField) (methods : List Method)
  | other (kind : Kind)
deriving DecidableEq

/-- An element of a slice: a value that is not a pointer, or a pointer with what it
points to (`none` for the nil pointer). -/
inductive Element where
  | value (r : Record)
  | pointer (elem : Option Record)
deriving DecidableEq

/-- The parameter `s any` of `templateMapProperty`: a slice with its elements, or a
value of another kind (`Invalid` for the nil interface). -/
inductive Input where
  | slice (elems : List Element)
  | other (kind : Kind)
deriving DecidableEq

end reflect

namespace exporter

/-- The body of the loop of `templateMapProperty` for the element `e`, with the result so
far: the result after it, or `none` for a panic (`MapIndex` with a key that cannot be
assigned, `Interface` on the zero value that `MapIndex` returns for a missing key, or
`Interface` on a field that is not exported). -/
def mapPropertyStep (p : String) (result : List Value) (e : reflect.Element) :
    Option (List Value) :=
  let v : Option reflect.Record :=
    match e with
    | .value r => some r
    | .pointer elem => elem
  match v with
  | some (.map stringKeys entries) =>
    if stringKeys then
      match entries.lookup p with
      | some x => some (result ++ [x])
      | none => none
    else none
  | some (.struct fields methods) =>
    match fields.find? (fun f => f.Name == p) with
    | some field => if field.exported then some (result ++ [field.value]) else none
    | none =>
      match methods.find? (fun m => m.Name == p) with
      | some m =>
        if m.NumIn == 0 && m.NumOut == 1 then some (result ++ [m.result]) else some result
      | none => some result
  | _ => some result

/-- The loop `for i := range sl.Len()` of `templateMapProperty`. -/
def mapPropertyLoop (p : String) : List reflect.Element → List Value → Option (List Value)
  | [], result => some result
  | e :: rest, result =>
    match mapPropertyStep p result e with
    | none => none
    | some result => mapPropertyLoop p rest result

/-- The function `templateMapProperty`; `none` is a panic, and the nil slice that it
returns for an input that is not a slice is the empty list. -/
def templateMapProperty (p : String) (s : reflect.Input) : Option (List Value) :=
  match s with
  | .slice elems => mapPropertyLoop p elems []
  | .other _ => some []

end exporter

/-! ## Example values -/

namespace config

/-- The rename mapping `{MyVar: ExportedVar}`. -/
def renameMyVar : GoMap := some (AList.insert "MyVar" "ExportedVar" ∅)

/-- An exact filter for the text `t`. -/
def exactFilter (t : String) : Filter := { text := t, regex := none }

/-- An entry that excludes functions and the name `Hidden` and renames `MyVar`. -/
def exampleEntry : Export :=
  { Import := "./a/aa", Output := "",
    Exclude := { Types := false, Variables := false, Constants := false, Functions := true,
                 Names := [exactFilter "Hidden"], Files := [] },
    Rename := renameMyVar }

/-- An entry without exclusions that renames `MyVar`. -/
def plainEntry : Export :=
  { Import := "./a/aa", Output := "",
    Exclude := { Types := false, Variables := false, Constants := false, Functions := false,
                 Names := [], Files := [] },
    Rename := renameMyVar }

/-- An entry with a rename mapping of its own for the keys `A` and `C`. -/
def otherEntry : Export :=
  { Import := "./a/ab", Output := "ab.go",
    Exclude := { Types := true, Variables := false, Constants := false, Functions := false,
                 Names := [], Files := [exactFilter "internal"] },
    Rename := some (AList.insert "A" "EA" (AList.insert "C" "EC" ∅)) }

/-- A decoded configuration: a default entry that renames `A` and `B`, excludes the
constants and filters the name `Secret`, with the two entries above. -/
def exampleConfig : Config :=
  { Common :=
      { Import := "", Output := "",
        Exclude := { Types := false, Variables := false, Constants := true,
                     Functions := false, Names := [exactFilter "Secret"], Files := [] },
        Rename := some (AList.insert "A" "DA" (AList.insert "B" "DB" ∅)) },
    Exports := [exampleEntry, otherEntry] }

/-- An entry that declares no rename mapping: the mapping is nil after decoding. -/
def nilRenameEntry : Export :=
  { Import := "./a/aa", Output := "",
    Exclude := { Types := false, Variables := false, Constants := false, Functions := false,
                 Names := [], Files := [] },
    Rename := none }

/-- A decoded configuration with the default entry of the example configuration, which
renames `A` and `B`, and the entry without a rename mapping. -/
def nilRenameConfig : Config :=
  { Common := exampleConfig.Common, Exports := [nilRenameEntry] }

/-- A stand-in for `regexp.Compile` that knows one expression: `a+`, which matches the
texts that contain the letter `a`; every other text is rejected. -/
def exampleCompile (expr : String) : Except String Regexp :=
  if expr = "a+" then .ok { MatchString := fun s => s.data.contains 'a' }
  else .error "missing closing )"

end config

namespace exports

/-- The sorted list of the records `A`, `X` and `Z` of the package `a`. -/
def threeTypes : List Export :=
  [⟨"A", "A", "a", ⟨[], ""⟩⟩, ⟨"X", "X", "a", ⟨[], ""⟩⟩, ⟨"Z", "Z", "a", ⟨[], ""⟩⟩]

/-- The declaration `func SumAll[T int | float64](values ...T) T` of the example
package `ab`. -/
def declSumAll : ast.FuncDecl :=
  { Doc := some { List := ["// SumAll adds a variadic number of values."],
                  Text := "SumAll adds a variadic number of values.\n" },
    Recv := none,
    Name := some { Name := "SumAll" },
    Type_ := { TypeParams := some { List := [{ Names := [{ Name := "T" }],
                                               Type_ := { ExprString := "int | float64" } }] },
               Params := some { List := [{ Names := [{ Name := "values" }],
                                           Type_ := { ExprString := "...T" } }] },
               Results := some { List := [{ Names := [], Type_ := { ExprString := "T" } }] } } }

end exports

namespace exporter

/-- A file set in which every position is in the file `aa.go` of the example package
`aa`. -/
def aaFileSet : FileSet := fun _ => some "/src/example/a/aa/aa.go"

/-- The example package `aa`. -/
def aaPackage : Package := { ID := "example.com/m/example/a/aa" }

/-- The declaration `type MyEnum int` of the example package `aa`. -/
def declMyEnum : ast.Node :=
  ast.Node.GenDecl 10
    { Doc := some { List := ["// MyEnum is an example enumeration type"],
                    Text := "MyEnum is an example enumeration type\n" },
      Tok := ast.Token.TYPE,
      Specs := [ast.Spec.TypeSpec (some { Name := "MyEnum" }) none] }

/-- The value specifications of a constant declaration after the example package `aa`,
with a name that is not exported:
`const ( EnumValue2, EnumValue1 MyEnum = 2, 1; hidden = 0 )`. -/
def enumValueSpecs : List (List config.Ident × Option ast.CommentGroup) :=
  [([{ Name := "EnumValue2" }, { Name := "EnumValue1" }],
    some { List := ["// values"], Text := "values\n" }),
   ([{ Name := "hidden" }], none)]

/-- That constant declaration, at the position 20. -/
def declEnumValues : ast.Node :=
  ast.Node.GenDecl 20
    { Doc := none, Tok := ast.Token.CONST,
      Specs := enumValueSpecs.map (fun v => ast.Spec.ValueSpec (v.1.map some) v.2) }

/-- The declaration `func SayHello()` of the example package `aa`, and the same
declaration with a receiver. -/
def declSayHello (recv : Option ast.FieldList) : ast.FuncDecl :=
  { Doc := some { List := ["// SayHello prints a greeting message using MyVar."],
                  Text := "SayHello prints a greeting message using MyVar.\n" },
    Recv := recv,
    Name := some { Name := "SayHello" },
    Type_ := { TypeParams := none, Params := some { List := [] }, Results := none } }

/-- An error of a failed template execution, after `template.ExecError`: its message is
the message of the error it wraps, which names the template and the line and column of
the failing action in it. -/
def execError : GoError :=
  GoError.wrapping "template: :1:44: executing at <.Missing>: no field Missing"
    (GoError.other "template: :1:44: executing at <.Missing>: no field Missing")

/-- An entry without exclusions but the file filter `aa`. -/
def fileFilterEntry : config.Export :=
  { Import := "./a/aa", Output := "",
    Exclude := { Types := false, Variables := false, Constants := false, Functions := false,
                 Names := [], Files := [config.exactFilter "aa"] },
    Rename := config.renameMyVar }

end exporter

end Reexporter

/-! # Theorems -/

namespace Reexporter

namespace config

/-! ## `ExportAs` -/

theorem isExported_eq_true_iff (isUpper : Char → Bool) (id : String) (hne : id ≠ "") :
    IsExported isUpper id = true ↔ ∃ ch rest, id.data = ch :: rest ∧ isUpper ch = true := by
  unfold IsExported
  cases hd : id.data with
  | nil => exact absurd (String.ext hd) hne
  | cons ch rest => simp

/-- C1: for a non-nil identifier `id` and each of the four kinds, paired with the
exclusion flag of the entry for that kind, `ExportAs` reports `included = true` if and
only if `id` is not empty, its first letter is upper case, the flag is not set and no
name filter of the entry matches `id`; and the answer is the same under every rename
mapping put in the place of the one of the entry. -/
theorem ExportAs_included_iff (isUpper : Char → Bool) (es : Export) (id : String)
    (kind : ExportType) (flag : Bool)
    (hkind : (kind, flag) ∈
      [(ExportTypeType, es.Exclude.Types), (ExportTypeVariable, es.Exclude.Variables),
       (ExportTypeConstant, es.Exclude.Constants),
       (ExportTypeFunction, es.Exclude.Functions)]) :
    ((es.ExportAs isUpper (some ⟨id⟩) kind).2 = true ↔
      id ≠ "" ∧ (∃ ch rest, id.data = ch :: rest ∧ isUpper ch = true) ∧ flag = false ∧
        ∀ f ∈ es.Exclude.Names, f.Match id = false) ∧
    (∀ rename : GoMap,
      (({ es with Rename := rename } : Export).ExportAs isUpper (some ⟨id⟩) kind).2 =
        (es.ExportAs isUpper (some ⟨id⟩) kind).2) := by
  have hflag : ((kind == ExportTypeType && es.Exclude.Types) ||
        (kind == ExportTypeVariable && es.Exclude.Variables) ||
        (kind == ExportTypeConstant && es.Exclude.Constants) ||
        (kind == ExportTypeFunction && es.Exclude.Functions)) = flag := by
    simp only [List.mem_cons, Prod.mk.injEq, List.mem_singleton, List.not_mem_nil,
      or_false] at hkind
    rcases hkind with ⟨rfl, rfl⟩ | ⟨rfl, rfl⟩ | ⟨rfl, rfl⟩ | ⟨rfl, rfl⟩ <;>
      simp [ExportTypeType, ExportTypeVariable, ExportTypeConstant, ExportTypeFunction]
  constructor
  · unfold Export.ExportAs
    simp only [hflag]
    by_cases hne : id = ""
    · simp [hne]
    · rw [← isExported_eq_true_iff isUpper id hne]
      by_cases hexp : IsExported isUpper id = true
      · cases flag with
        | true => simp [hne, hexp]
        | false =>
          by_cases hany : (es.Exclude.Names.any (fun f => f.Match id)) = true
          · have hany2 := hany
            rw [List.any_eq_true] at hany2
            obtain ⟨f, hf, hm⟩ := hany2
            simp only [hne, hexp, hany]
            simp only [decide_False, Bool.not_true, Bool.or_self, Bool.false_eq_true,
              ↓reduceIte, ne_eq, not_false_eq_true, true_and, false_iff]
            intro hcon
            have := hcon.2 f hf
            simp [hm] at this
          · have hall : ∀ f ∈ es.Exclude.Names, f.Match id = false := by
              intro f hf
              by_contra hm
              exact hany (List.any_eq_true.mpr ⟨f, hf, by simpa using hm⟩)
            simp only [hne, hexp, hany]
            cases es.Rename.get id <;> simp <;> exact ⟨hne, hall⟩
      · simp [hne, hexp]
  · intro rename
    unfold Export.ExportAs
    simp only [hflag]
    by_cases h1 : (id = "" || !(IsExported isUpper id)) = true
    · simp [h1]
    · simp only [h1]
      cases flag with
      | true => simp
      | false =>
        by_cases hany : (es.Exclude.Names.any (fun f => f.Match id)) = true
        · simp [hany]
        · simp only [hany]
          cases es.Rename.get id <;> cases GoMap.get rename id <;> simp

/-- Witness of C1: the example entry accepts the variable `MyVar`. -/
theorem ExportAs_included_iff_witness :
    (ExportTypeVariable, false) ∈
      [(ExportTypeType, exampleEntry.Exclude.Types),
       (ExportTypeVariable, exampleEntry.Exclude.Variables),
       (ExportTypeConstant, exampleEntry.Exclude.Constants),
       (ExportTypeFunction, exampleEntry.Exclude.Functions)] ∧
    (((exampleEntry.ExportAs Char.isUpper (some ⟨"MyVar"⟩) ExportTypeVariable).2 = true ↔
      "MyVar" ≠ "" ∧ (∃ ch rest, "MyVar".data = ch :: rest ∧ Char.isUpper ch = true) ∧
        false = false ∧ ∀ f ∈ exampleEntry.Exclude.Names, f.Match "MyVar" = false) ∧
    (∀ rename : GoMap,
      (({ exampleEntry with Rename := rename } : Export).ExportAs Char.isUpper
          (some ⟨"MyVar"⟩) ExportTypeVariable).2 =
        (exampleEntry.ExportAs Char.isUpper (some ⟨"MyVar"⟩) ExportTypeVariable).2)) :=
  ⟨by decide,
   ExportAs_included_iff Char.isUpper exampleEntry "MyVar" ExportTypeVariable false
     (by decide)⟩

/-- C2: under every entry and for every kind, `ExportAs` reports `included = false`
for the nil identifier, for the empty name and for a name whose first letter is not
upper case. -/
theorem ExportAs_rejects_unexported (isUpper : Char → Bool) (es : Export)
    (name : Option Ident) (kind : ExportType)
    (h : name = none ∨ ∃ id, name = some id ∧
      (id.Name = "" ∨ ∀ ch rest, id.Name.data = ch :: rest → isUpper ch = false)) :
    (es.ExportAs isUpper name kind).2 = false := by
  rcases h with rfl | ⟨id, rfl, h⟩
  · rfl
  · unfold Export.ExportAs
    rcases h with h | h
    · simp [h]
    · by_cases hne : id.Name = ""
      · simp [hne]
      · have hexp : IsExported isUpper id.Name = false := by
          cases hx : IsExported isUpper id.Name with
          | false => rfl
          | true =>
            obtain ⟨ch, rest, hd, hu⟩ := (isExported_eq_true_iff isUpper id.Name hne).mp hx
            rw [h ch rest hd] at hu
            exact absurd hu (by decide)
        simp [hexp]

/-- Witness of C2: the rename entry `myVar → MyVar` does not make `myVar` included. -/
theorem ExportAs_rejects_unexported_witness :
    ((some ⟨"myVar"⟩ : Option Ident) = none ∨ ∃ id : Ident, some ⟨"myVar"⟩ = some id ∧
      (id.Name = "" ∨ ∀ ch rest, id.Name.data = ch :: rest → Char.isUpper ch = false)) ∧
    (({ exampleEntry with Rename := some (AList.insert "myVar" "MyVar" ∅) } : Export).ExportAs
      Char.isUpper (some ⟨"myVar"⟩) ExportTypeVariable).2 = false :=
  have h : (some ⟨"myVar"⟩ : Option Ident) = none ∨ ∃ id : Ident, some ⟨"myVar"⟩ = some id ∧
      (id.Name = "" ∨ ∀ ch rest, id.Name.data = ch :: rest → Char.isUpper ch = false) :=
    Or.inr ⟨⟨"myVar"⟩, rfl, Or.inr (by
      intro ch rest hd
      have hc : ch = 'm' := by
        have := (List.cons.inj hd).1
        exact this.symm
      subst hc
      decide)⟩
  ⟨h, ExportAs_rejects_unexported Char.isUpper _ _ ExportTypeVariable h⟩

/-- C3: when `ExportAs` reports `included = true` for the identifier `id`, the name it
returns is the value of the rename mapping for the key `id` when the mapping has that
key, and `id` itself otherwise; and under the rename mapping `{MyVar: ExportedVar}`,
with the variables not excluded and no name filter, `ExportAs(MyVar, variable)` is
`(ExportedVar, true)`. -/
theorem ExportAs_name (isUpper : Char → Bool) (es : Export) (id : String)
    (kind : ExportType) :
    ((es.ExportAs isUpper (some ⟨id⟩) kind).2 = true →
      (∀ v, es.Rename.get id = some v → (es.ExportAs isUpper (some ⟨id⟩) kind).1 = v) ∧
      (es.Rename.get id = none → (es.ExportAs isUpper (some ⟨id⟩) kind).1 = id)) ∧
    (isUpper 'M' = true → es.Exclude.Variables = false → es.Exclude.Names = [] →
      es.Rename = renameMyVar →
      es.ExportAs isUpper (some ⟨"MyVar"⟩) ExportTypeVariable = ("ExportedVar", true)) := by
  constructor
  · unfold Export.ExportAs
    dsimp only
    split_ifs with h1 h2 h3
    · simp
    · simp
    · simp
    · intro _
      cases hg : es.Rename.get id with
      | none => simp
      | some v => simp
  · intro hM hV hN hR
    have hexp : IsExported isUpper "MyVar" = true := hM
    have hget : GoMap.get renameMyVar "MyVar" = some "ExportedVar" := by decide
    unfold Export.ExportAs
    simp [hexp, hV, hN, hR, hget, ExportTypeType, ExportTypeVariable, ExportTypeConstant,
      ExportTypeFunction]

/-- Witness of C3: the entry without exclusions returns `ExportedVar` for the variable
`MyVar`, and the example entry, which has a name filter, does so too. -/
theorem ExportAs_name_witness :
    (plainEntry.ExportAs Char.isUpper (some ⟨"MyVar"⟩) ExportTypeVariable =
      ("ExportedVar", true)) ∧
    ((exampleEntry.ExportAs Char.isUpper (some ⟨"MyVar"⟩) ExportTypeVariable).2 = true ∧
     (exampleEntry.ExportAs Char.isUpper (some ⟨"MyVar"⟩) ExportTypeVariable).1 =
      "ExportedVar") :=
  ⟨(ExportAs_name Char.isUpper plainEntry "MyVar" ExportTypeVariable).2
     (by decide) rfl rfl rfl,
   by decide,
   ((ExportAs_name Char.isUpper exampleEntry "MyVar" ExportTypeVariable).1 (by decide)).1
     "ExportedVar" (by decide)⟩

end config

end Reexporter

namespace Reexporter

/-! ## `maps.Copy` -/

theorem foldl_set_none (l : List (Sigma (fun _ : String => String))) :
    l.foldl (fun acc kv => acc.bind (fun d => GoMap.set d kv.1 kv.2)) none = none := by
  induction l with
  | nil => rfl
  | cons kv l ih => simpa [List.foldl] using ih

theorem foldl_set_some (l : List (Sigma (fun _ : String => String)))
    (a : AList (fun _ : String => String)) :
    l.foldl (fun acc kv => acc.bind (fun d => GoMap.set d kv.1 kv.2)) (some (some a)) =
      some (some (l.foldl (fun m kv => m.insert kv.1 kv.2) a)) := by
  induction l generalizing a with
  | nil => rfl
  | cons kv l ih => simpa [List.foldl, GoMap.set] using ih (a.insert kv.1 kv.2)

theorem lookup_foldl_insert (l : List (Sigma (fun _ : String => String)))
    (hl : l.NodupKeys) (a : AList (fun _ : String => String)) (k : String) :
    (l.foldl (fun m kv => m.insert kv.1 kv.2) a).lookup k =
      match l.dlookup k with
      | some v => some v
      | none => a.lookup k := by
  induction l generalizing a with
  | nil => rfl
  | cons kv l ih =>
    obtain ⟨hk, hl2⟩ := List.nodupKeys_cons.mp hl
    rw [List.foldl_cons, ih hl2]
    by_cases h : k = kv.1
    · subst h
      have hnone : l.dlookup kv.1 = none := List.dlookup_eq_none.mpr hk
      rw [hnone, List.dlookup_cons_eq]
      simp [AList.lookup_insert]
    · rw [List.dlookup_cons_ne _ _ h]
      cases l.dlookup k with
      | some v => rfl
      | none => simp [AList.lookup_insert_ne h]

/-- `maps.Copy` panics exactly when the destination is the nil map and the source has
an entry. -/
theorem maps_Copy_eq_none_iff (dst src : GoMap) :
    maps.Copy dst src = none ↔ dst = none ∧ src.entries ≠ [] := by
  unfold maps.Copy
  cases dst with
  | none =>
    cases hsrc : GoMap.entries src with
    | nil => simp
    | cons kv l =>
      constructor
      · intro _
        exact ⟨rfl, by simp⟩
      · intro _
        exact foldl_set_none l
  | some a => simp [foldl_set_some]

/-- `maps.Copy` into a map that is not nil: every key of the source gets the value of
the source, every other key keeps what the destination has. -/
theorem maps_Copy_some (e : AList (fun _ : String => String)) (src : GoMap) :
    ∃ m, maps.Copy (some e) src = some (some m) ∧
      ∀ k, m.lookup k = match src.get k with
        | some v => some v
        | none => e.lookup k := by
  unfold maps.Copy
  rw [foldl_set_some]
  refine ⟨_, rfl, fun k => ?_⟩
  cases src with
  | none => rfl
  | some d => exact lookup_foldl_insert d.entries d.nodupKeys e k

namespace config

/-! ## The merge of `FromFile` -/

/-- The merged entry, field by field. -/
theorem mergeEntry_eq_some_iff (D E M : Export) :
    mergeEntry D E = some M ↔
      ∃ m, maps.Copy E.Rename D.Rename = some m ∧
        M = { Import := E.Import,
              Output := if E.Output = "" then D.Output else E.Output,
              Exclude := { Types := E.Exclude.Types || D.Exclude.Types,
                           Variables := E.Exclude.Variables || D.Exclude.Variables,
                           Constants := E.Exclude.Constants || D.Exclude.Constants,
                           Functions := E.Exclude.Functions || D.Exclude.Functions,
                           Names := E.Exclude.Names ++ D.Exclude.Names,
                           Files := E.Exclude.Files ++ D.Exclude.Files },
              Rename := m } := by
  unfold mergeEntry
  dsimp only
  by_cases ho : E.Output = ""
  · simp only [ho, if_true]
    cases maps.Copy E.Rename D.Rename with
    | none => simp
    | some m => simp [eq_comm]
  · simp only [ho, if_false]
    cases maps.Copy E.Rename D.Rename with
    | none => simp
    | some m => simp [eq_comm]

/-- The merge of one entry panics exactly when the entry has the nil rename mapping
and the default entry has a rename. -/
theorem mergeEntry_eq_none_iff (D E : Export) :
    mergeEntry D E = none ↔ E.Rename = none ∧ D.Rename.entries ≠ [] := by
  rw [← maps_Copy_eq_none_iff]
  cases h : mergeEntry D E with
  | none =>
    simp only [true_iff]
    cases hc : maps.Copy E.Rename D.Rename with
    | none => rfl
    | some m =>
      have := (mergeEntry_eq_some_iff D E _).mpr ⟨m, hc, rfl⟩
      rw [h] at this
      exact absurd this (by simp)
  | some M =>
    obtain ⟨m, hm, _⟩ := (mergeEntry_eq_some_iff D E M).mp h
    simp [hm]

/-- The loop returns the entries merged one by one. -/
theorem mergeLoop_eq_some_iff (D : Export) (es ms : List Export) :
    mergeLoop D es = some ms ↔ List.Forall₂ (fun E M => mergeEntry D E = some M) es ms := by
  induction es generalizing ms with
  | nil =>
    cases ms with
    | nil => simp [mergeLoop]
    | cons M ms => simp [mergeLoop]
  | cons E es ih =>
    unfold mergeLoop
    cases hE : mergeEntry D E with
    | none =>
      cases ms with
      | nil => simp
      | cons M ms => simp [hE]
    | some M1 =>
      cases hl : mergeLoop D es with
      | none =>
        cases ms with
        | nil => simp
        | cons M ms =>
          simp only [List.forall₂_cons, false_iff, not_and, reduceCtorEq]
          intro _ hf
          rw [← ih, hl] at hf
          exact absurd hf (by simp)
      | some ms1 =>
        cases ms with
        | nil => simp
        | cons M ms =>
          simp only [Option.some.injEq, List.cons.injEq, List.forall₂_cons, hE, ← ih, hl]

/-- The loop completes when no entry has the nil rename mapping. -/
theorem mergeLoop_isSome (D : Export) (es : List Export)
    (h : ∀ E ∈ es, E.Rename ≠ none) : ∃ ms, mergeLoop D es = some ms := by
  induction es with
  | nil => exact ⟨[], rfl⟩
  | cons E es ih =>
    obtain ⟨ms, hms⟩ := ih (fun E1 h1 => h E1 (List.mem_cons_of_mem _ h1))
    cases hE : mergeEntry D E with
    | none =>
      exact absurd ((mergeEntry_eq_none_iff D E).mp hE).1 (h E (List.mem_cons_self _ _))
    | some M => exact ⟨M :: ms, by simp [mergeLoop, hE, hms]⟩

/-- A call of `FromFile` on a decoded configuration runs the loop with a default entry
that has the exclusions and the renames of the decoded one. -/
theorem FromFile_ok_eq (cfg : Config) :
    ∃ D : Export, D.Exclude = cfg.Common.Exclude ∧ D.Rename = cfg.Common.Rename ∧
      FromFile (.ok cfg) =
        match mergeLoop D cfg.Exports with
        | none => Outcome.panic
        | some exports => Outcome.ok ({ Common := D, Exports := exports } : Config) := by
  unfold FromFile
  dsimp only
  by_cases ho : cfg.Common.Output = ""
  · exact ⟨{ cfg.Common with Output := "exported.go" }, rfl, rfl, by simp only [ho, if_true]⟩
  · exact ⟨cfg.Common, rfl, rfl, by simp only [ho, if_false]⟩

/-- When a call of `FromFile` on a decoded configuration returns a configuration, every
entry of it is the merge of the decoded entry at the same position. -/
theorem FromFile_ok_merged (cfg out : Config) :
    FromFile (.ok cfg) = .ok out →
      ∃ common : Export, common.Exclude = cfg.Common.Exclude ∧
        common.Rename = cfg.Common.Rename ∧
        List.Forall₂ (fun E M => mergeEntry common E = some M) cfg.Exports out.Exports := by
  obtain ⟨D, hx, hr, hF⟩ := FromFile_ok_eq cfg
  rw [hF]
  cases hl : mergeLoop D cfg.Exports with
  | none => simp
  | some ms =>
    intro h
    have h2 : ({ Common := D, Exports := ms } : Config) = out := by
      injection h
    subst h2
    exact ⟨D, hx, hr, (mergeLoop_eq_some_iff D cfg.Exports ms).mp hl⟩

/-- A call of `FromFile` on a decoded configuration returns when no entry has the nil
rename mapping. -/
theorem FromFile_ok_of_rename (cfg : Config) (h : ∀ E ∈ cfg.Exports, E.Rename ≠ none) :
    ∃ out, FromFile (.ok cfg) = .ok out := by
  obtain ⟨D, _, _, hF⟩ := FromFile_ok_eq cfg
  obtain ⟨ms, hms⟩ := mergeLoop_isSome D cfg.Exports h
  rw [hF, hms]
  exact ⟨_, rfl⟩

/-- Every entry of the example configuration has a rename mapping. -/
theorem exampleConfig_rename_present : ∀ E ∈ exampleConfig.Exports, E.Rename ≠ none := by
  intro E hE
  have hE2 : E = exampleEntry ∨ E = otherEntry := by
    simpa [exampleConfig] using hE
  rcases hE2 with rfl | rfl <;> simp [exampleEntry, otherEntry, renameMyVar]

/-- C4: with the rename mapping `d` of the default entry present, `FromFile` returns a
configuration when the rename mapping of every entry is present, and in what it returns
the rename mapping `m` of an entry whose own mapping `e` was present has: for a key in
both `d` and `e` the value of `d`, for a key only in `e` the value of `e`, for a key
only in `d` the value of `d`, and no other key. -/
theorem FromFile_rename_merge (cfg : Config) (d : AList (fun _ : String => String))
    (hD : cfg.Common.Rename = some d) :
    ((∀ E ∈ cfg.Exports, E.Rename ≠ none) → ∃ out, FromFile (.ok cfg) = .ok out) ∧
    ∀ out, FromFile (.ok cfg) = .ok out →
      List.Forall₂ (fun E M => ∀ e, E.Rename = some e → ∃ m, M.Rename = some m ∧
        (∀ k, k ∈ d → k ∈ e → m.lookup k = d.lookup k) ∧
        (∀ k, k ∉ d → k ∈ e → m.lookup k = e.lookup k) ∧
        (∀ k, k ∈ d → k ∉ e → m.lookup k = d.lookup k) ∧
        (∀ k, k ∉ d → k ∉ e → k ∉ m)) cfg.Exports out.Exports := by
  refine ⟨FromFile_ok_of_rename cfg, fun out hout => ?_⟩
  obtain ⟨D, _, hr, hf⟩ := FromFile_ok_merged cfg out hout
  refine hf.imp (fun E M hM e he => ?_)
  obtain ⟨m0, hcopy, hMeq⟩ := (mergeEntry_eq_some_iff D E M).mp hM
  obtain ⟨m, hm, hlook⟩ := maps_Copy_some e D.Rename
  rw [he, hm] at hcopy
  have hm0 : m0 = some m := (Option.some.inj hcopy).symm
  have hget : ∀ k, GoMap.get D.Rename k = d.lookup k := by
    intro k
    rw [hr, hD]
    rfl
  have hin : ∀ k, k ∈ d → m.lookup k = d.lookup k := by
    intro k hk
    rw [hlook k, hget k]
    obtain ⟨v, hv⟩ := Option.isSome_iff_exists.mp (AList.lookup_isSome.mpr hk)
    rw [hv]
  have hout : ∀ k, k ∉ d → m.lookup k = e.lookup k := by
    intro k hk
    rw [hlook k, hget k, AList.lookup_eq_none.mpr hk]
  refine ⟨m, by rw [hMeq, hm0], fun k hk _ => hin k hk, fun k hk _ => hout k hk,
    fun k hk _ => hin k hk, fun k hk hke => ?_⟩
  rw [← AList.lookup_eq_none, hout k hk]
  exact AList.lookup_eq_none.mpr hke

/-- Witness of C4: the example configuration is merged, and the entry that renames
`A` and `C` ends with the value of the default entry for `A`, which both mappings have,
the added key `B` of the default entry, and its own value for `C`. -/
theorem FromFile_rename_merge_witness :
    exampleConfig.Common.Rename = some (AList.insert "A" "DA" (AList.insert "B" "DB" ∅)) ∧
    (∃ out, FromFile (.ok exampleConfig) = .ok out) ∧
    (mergeEntry exampleConfig.Common otherEntry).map (fun M =>
      (M.Rename.get "A", M.Rename.get "B", M.Rename.get "C", M.Rename.get "Z")) =
      some (some "DA", some "DB", some "EC", none) :=
  ⟨rfl,
   (FromFile_rename_merge exampleConfig (AList.insert "A" "DA" (AList.insert "B" "DB" ∅))
      rfl).1 exampleConfig_rename_present,
   by decide⟩

/-- C5: when `FromFile` returns a configuration, each of the four kind flags of every
entry of it is the flag of the default entry OR the flag of the decoded entry at the same
position, so that a flag set in either one is set in the merged entry; and `FromFile`
returns one when the rename mapping of every entry is present. -/
theorem FromFile_flags_or (cfg : Config) :
    ((∀ E ∈ cfg.Exports, E.Rename ≠ none) → ∃ out, FromFile (.ok cfg) = .ok out) ∧
    ∀ out, FromFile (.ok cfg) = .ok out →
      List.Forall₂ (fun E M =>
        M.Exclude.Types = (cfg.Common.Exclude.Types || E.Exclude.Types) ∧
        M.Exclude.Variables = (cfg.Common.Exclude.Variables || E.Exclude.Variables) ∧
        M.Exclude.Constants = (cfg.Common.Exclude.Constants || E.Exclude.Constants) ∧
        M.Exclude.Functions = (cfg.Common.Exclude.Functions || E.Exclude.Functions))
        cfg.Exports out.Exports := by
  refine ⟨FromFile_ok_of_rename cfg, fun out hout => ?_⟩
  obtain ⟨D, hx, _, hf⟩ := FromFile_ok_merged cfg out hout
  refine hf.imp (fun E M hM => ?_)
  obtain ⟨m0, _, hMeq⟩ := (mergeEntry_eq_some_iff D E M).mp hM
  subst hMeq
  rw [← hx]
  exact ⟨Bool.or_comm _ _, Bool.or_comm _ _, Bool.or_comm _ _, Bool.or_comm _ _⟩

/-- Witness of C5: the example configuration is merged; its default entry excludes the
constants and its second entry the types, and the merged second entry excludes both. -/
theorem FromFile_flags_or_witness :
    (∃ out, FromFile (.ok exampleConfig) = .ok out) ∧
    (mergeEntry exampleConfig.Common otherEntry).map (fun M =>
      (M.Exclude.Types, M.Exclude.Variables, M.Exclude.Constants, M.Exclude.Functions)) =
      some (true, false, true, false) :=
  ⟨(FromFile_flags_or exampleConfig).1 exampleConfig_rename_present, by decide⟩

/-- C6: when `FromFile` returns a configuration, the name filters of every entry of it
are the name filters of the decoded entry followed by those of the default entry, and
the same for the file filters; so a filter of the merged entry matches a name exactly
when a filter of the entry or of the default entry does, and `IncludeFile` of the merged
entry rejects a file exactly when a file filter of the entry or of the default entry
matches it. `FromFile` returns a configuration when the rename mapping of every entry
is present. -/
theorem FromFile_filters_concat (cfg : Config) :
    ((∀ E ∈ cfg.Exports, E.Rename ≠ none) → ∃ out, FromFile (.ok cfg) = .ok out) ∧
    ∀ out, FromFile (.ok cfg) = .ok out →
      List.Forall₂ (fun E M =>
        M.Exclude.Names = E.Exclude.Names ++ cfg.Common.Exclude.Names ∧
        M.Exclude.Files = E.Exclude.Files ++ cfg.Common.Exclude.Files ∧
        (∀ s, M.Exclude.Names.any (fun f => f.Match s) = true ↔
          (∃ f ∈ E.Exclude.Names, f.Match s = true) ∨
          (∃ f ∈ cfg.Common.Exclude.Names, f.Match s = true)) ∧
        (∀ s, M.IncludeFile s = false ↔
          (∃ f ∈ E.Exclude.Files, f.Match s = true) ∨
          (∃ f ∈ cfg.Common.Exclude.Files, f.Match s = true)))
        cfg.Exports out.Exports := by
  refine ⟨FromFile_ok_of_rename cfg, fun out hout => ?_⟩
  obtain ⟨D, hx, _, hf⟩ := FromFile_ok_merged cfg out hout
  refine hf.imp (fun E M hM => ?_)
  obtain ⟨m0, _, hMeq⟩ := (mergeEntry_eq_some_iff D E M).mp hM
  subst hMeq
  rw [← hx]
  refine ⟨rfl, rfl, fun s => ?_, fun s => ?_⟩
  · simp only [List.any_append, Bool.or_eq_true, List.any_eq_true]
  · simp only [Export.IncludeFile, List.any_append, Bool.not_eq_false', Bool.or_eq_true,
      List.any_eq_true]

/-- Witness of C6: the example configuration is merged, and its merged first entry has
its own name filter `Hidden` followed by the filter `Secret` of the default entry. -/
theorem FromFile_filters_concat_witness :
    (∃ out, FromFile (.ok exampleConfig) = .ok out) ∧
    (mergeEntry exampleConfig.Common exampleEntry).map (fun M =>
      (M.Exclude.Names.map (fun f => f.text), M.Exclude.Files.map (fun f => f.text),
       M.Exclude.Names.any (fun f => f.Match "Secret"),
       M.Exclude.Names.any (fun f => f.Match "Hidden"),
       M.Exclude.Names.any (fun f => f.Match "Other"))) =
      some (["Hidden", "Secret"], [], true, true, false) :=
  ⟨(FromFile_filters_concat exampleConfig).1 exampleConfig_rename_present, by decide⟩

end config

end Reexporter

namespace Reexporter

/-! ## Byte-wise comparison -/

theorem bytesCompare_swap (a b : List Nat) : bytesCompare b a = - bytesCompare a b := by
  induction a generalizing b with
  | nil => cases b <;> simp [bytesCompare]
  | cons x a ih =>
    cases b with
    | nil => simp [bytesCompare]
    | cons y b =>
      simp only [bytesCompare]
      split_ifs <;> first | omega | exact ih b

theorem bytesCompare_lt_of_le_of_lt (a b c : List Nat) (h1 : bytesCompare a b ≤ 0)
    (h2 : bytesCompare b c < 0) : bytesCompare a c < 0 := by
  induction a generalizing b c with
  | nil =>
    cases c with
    | nil => cases b <;> simp [bytesCompare] at h2
    | cons z c => simp [bytesCompare]
  | cons x a ih =>
    cases b with
    | nil => simp [bytesCompare] at h1
    | cons y b =>
      cases c with
      | nil => simp [bytesCompare] at h2
      | cons z c =>
        simp only [bytesCompare] at h1 h2 ⊢
        split_ifs at h1 h2 ⊢ <;> first | omega | exact ih b c h1 h2

theorem bytesCompare_le_trans (a b c : List Nat) (h1 : bytesCompare a b ≤ 0)
    (h2 : bytesCompare b c ≤ 0) : bytesCompare a c ≤ 0 := by
  induction a generalizing b c with
  | nil => cases c <;> simp [bytesCompare]
  | cons x a ih =>
    cases b with
    | nil => simp [bytesCompare] at h1
    | cons y b =>
      cases c with
      | nil => simp [bytesCompare] at h2
      | cons z c =>
        simp only [bytesCompare] at h1 h2 ⊢
        split_ifs at h1 h2 ⊢ <;> first | omega | exact ih b c h1 h2

/-! ## Binary search and insertion -/

/-- The loop of the binary search ends between its two bounds. -/
theorem binarySearchLoop_bounds {E T : Type} (cmp : E → T → Int) (x : List E) (target : T)
    (fuel i j : Nat) (hj : j ≤ x.length) (hf : j - i ≤ fuel) (hij : i ≤ j) :
    i ≤ slices.binarySearchLoop cmp x target fuel i j hj hf ∧
      slices.binarySearchLoop cmp x target fuel i j hj hf ≤ j := by
  induction fuel generalizing i j with
  | zero =>
    simp only [slices.binarySearchLoop]
    omega
  | succ fuel ih =>
    simp only [slices.binarySearchLoop]
    split_ifs with h1 h2
    · have := ih ((i + j) / 2 + 1) j hj (by omega) (by omega)
      omega
    · have := ih i ((i + j) / 2) (by omega) (by omega) (by omega)
      omega
    · omega

/-- The index that `BinarySearchFunc` returns is at most the length of the slice. -/
theorem BinarySearchFunc_le_length {E T : Type} (x : List E) (target : T)
    (cmp : E → T → Int) : (slices.BinarySearchFunc x target cmp).1 ≤ x.length :=
  (binarySearchLoop_bounds cmp x target x.length 0 x.length (Nat.le_refl _) (by omega)
    (Nat.zero_le _)).2

/-- On a slice in which an element below the target has only elements below the target
before it, the loop of the binary search ends at the position that has the elements
below the target before it and the others from it on. -/
theorem binarySearchLoop_partition {E T : Type} (cmp : E → T → Int) (x : List E)
    (target : T)
    (hx : ∀ (a b : Nat) (ha : a < x.length) (hb : b < x.length), a < b →
      cmp x[b] target < 0 → cmp x[a] target < 0)
    (fuel i j : Nat) (hj : j ≤ x.length) (hf : j - i ≤ fuel) (hij : i ≤ j)
    (hlow : ∀ (k : Nat) (hk : k < x.length), k < i → cmp x[k] target < 0)
    (hhigh : ∀ (k : Nat) (hk : k < x.length), j ≤ k → 0 ≤ cmp x[k] target) :
    (∀ (k : Nat) (hk : k < x.length),
      k < slices.binarySearchLoop cmp x target fuel i j hj hf → cmp x[k] target < 0) ∧
    (∀ (k : Nat) (hk : k < x.length),
      slices.binarySearchLoop cmp x target fuel i j hj hf ≤ k → 0 ≤ cmp x[k] target) := by
  induction fuel generalizing i j with
  | zero =>
    simp only [slices.binarySearchLoop]
    have hji : j ≤ i := by omega
    exact ⟨hlow, fun k hk hik => hhigh k hk (by omega)⟩
  | succ fuel ih =>
    simp only [slices.binarySearchLoop]
    split_ifs with h1 h2
    · refine ih ((i + j) / 2 + 1) j hj (by omega) (by omega) ?_ hhigh
      intro k hk hlt
      have hmid : (i + j) / 2 < x.length := by omega
      have h2' : cmp x[(i + j) / 2] target < 0 := h2
      by_cases hkm : k = (i + j) / 2
      · subst hkm
        exact h2'
      · exact hx k ((i + j) / 2) hk hmid (by omega) h2'
    · refine ih i ((i + j) / 2) (by omega) (by omega) (by omega) hlow ?_
      intro k hk hge
      have hmid : (i + j) / 2 < x.length := by omega
      have h2' : ¬ cmp x[(i + j) / 2] target < 0 := h2
      by_cases hkm : k = (i + j) / 2
      · subst hkm
        omega
      · by_contra hcon
        exact h2' (hx ((i + j) / 2) k hmid hk (by omega) (by omega))
    · exact ⟨hlow, fun k hk hik => hhigh k hk (by omega)⟩

namespace exports

/-! ## `insertSortedExport` -/

/-- The function `insertSortedExport` never panics: it puts the record at the index
the binary search returns. -/
theorem insertSortedExport_eq (ts : List Export) (t : Export) :
    insertSortedExport ts t =
      some (ts.take (slices.BinarySearchFunc ts t
          (fun a b => strings.Compare a.ExportName b.ExportName)).1 ++ [t] ++
        ts.drop (slices.BinarySearchFunc ts t
          (fun a b => strings.Compare a.ExportName b.ExportName)).1) := by
  unfold insertSortedExport slices.Insert
  simp only
  rw [if_pos (BinarySearchFunc_le_length ts t _)]

/-- The result of `insertSortedExport` is a permutation of the list with the record
added. -/
theorem insertSortedExport_perm (ts : List Export) (t : Export) :
    ∃ r, insertSortedExport ts t = some r ∧ r.length = ts.length + 1 ∧
      r.Perm (t :: ts) := by
  refine ⟨_, insertSortedExport_eq ts t, ?_, ?_⟩
  · have h := BinarySearchFunc_le_length ts t
      (fun a b => strings.Compare a.ExportName b.ExportName)
    simp only [List.length_append, List.length_take, List.length_drop, List.length_cons,
      List.length_nil]
    omega
  · rw [List.append_assoc]
    refine (List.perm_middle (a := t)).trans ?_
    simp

/-- The function `insertSortedExport` keeps a sorted list sorted. -/
theorem insertSortedExport_sorted (ts : List Export) (t : Export)
    (hs : sortedByExportName ts) :
    ∃ r, insertSortedExport ts t = some r ∧ sortedByExportName r := by
  refine ⟨_, insertSortedExport_eq ts t, ?_⟩
  have hidx := List.pairwise_iff_getElem.mp hs
  have hpart := binarySearchLoop_partition
    (fun a b : Export => strings.Compare a.ExportName b.ExportName) ts t
    (fun a b ha hb hab hlt =>
      bytesCompare_lt_of_le_of_lt _ _ _ (hidx a b ha hb hab) hlt)
    ts.length 0 ts.length (Nat.le_refl _) (by omega) (Nat.zero_le _)
    (fun k _ hk => absurd hk (Nat.not_lt_zero k))
    (fun k hk hle => absurd hk (by omega))
  have hr : (slices.BinarySearchFunc ts t
      (fun a b => strings.Compare a.ExportName b.ExportName)).1 =
      slices.binarySearchLoop (fun a b : Export => strings.Compare a.ExportName b.ExportName)
        ts t ts.length 0 ts.length (Nat.le_refl _) (by omega) := rfl
  rw [hr]
  generalize slices.binarySearchLoop
    (fun a b : Export => strings.Compare a.ExportName b.ExportName)
    ts t ts.length 0 ts.length (Nat.le_refl _) (by omega) = r at hpart
  obtain ⟨hlow, hhigh⟩ := hpart
  have hsplit : sortedByExportName (ts.take r ++ ts.drop r) := by
    rw [List.take_append_drop]
    exact hs
  obtain ⟨htake, hdrop, hcross⟩ := List.pairwise_append.mp hsplit
  have hbelow : ∀ a ∈ ts.take r, strings.Compare a.ExportName t.ExportName < 0 := by
    intro a ha
    obtain ⟨k, hk, rfl⟩ := List.mem_take_iff_getElem.mp ha
    exact hlow k (by omega) (by omega)
  have habove : ∀ b ∈ ts.drop r, strings.Compare t.ExportName b.ExportName ≤ 0 := by
    intro b hb
    obtain ⟨k, hk, rfl⟩ := List.mem_drop_iff_getElem.mp hb
    have h : 0 ≤ strings.Compare ts[r + k].ExportName t.ExportName :=
      hhigh (r + k) (by omega) (by omega)
    have hswap := bytesCompare_swap (utf8Bytes ts[r + k].ExportName) (utf8Bytes t.ExportName)
    unfold strings.Compare at h ⊢
    omega
  unfold sortedByExportName
  rw [List.append_assoc, List.pairwise_append]
  refine ⟨htake, ?_, ?_⟩
  · rw [List.singleton_append, List.pairwise_cons]
    exact ⟨habove, hdrop⟩
  · intro a ha b hb
    rw [List.singleton_append, List.mem_cons] at hb
    rcases hb with rfl | hb
    · exact le_of_lt (hbelow a ha)
    · exact hcross a ha b hb

/-! ## The registry -/

/-- One call on a registry whose import set is not nil and whose three sorted lists are
sorted does not panic and leaves such a registry. -/
theorem call_keeps_sorted (td : Exports) (c : Call) (hset : td.importsSet ≠ none)
    (hT : sortedByExportName td.Types) (hV : sortedByExportName td.Variables)
    (hC : sortedByExportName td.Constants) :
    ∃ td1, td.call c = some td1 ∧ td1.importsSet ≠ none ∧ sortedByExportName td1.Types ∧
      sortedByExportName td1.Variables ∧ sortedByExportName td1.Constants := by
  cases c with
  | AddImport p =>
    simp only [Exports.call, Exports.AddImport]
    cases hs : td.importsSet with
    | none => exact absurd hs hset
    | some set =>
      by_cases hp : p ∈ set
      · exact ⟨td, by simp [hp], hset, hT, hV, hC⟩
      · exact ⟨{ td with importsSet := some (insert p set), Imports := td.Imports ++ [p] },
          by simp only [hp, if_false], by simp, hT, hV, hC⟩
  | AddType e n p c =>
    obtain ⟨r, hr, hsr⟩ := insertSortedExport_sorted td.Types
      { ExportName := e, Name := n, Package := p, Comment := c } hT
    exact ⟨{ td with Types := r }, by simp only [Exports.call, Exports.AddType, hr],
      hset, hsr, hV, hC⟩
  | AddVariable e n p c =>
    obtain ⟨r, hr, hsr⟩ := insertSortedExport_sorted td.Variables
      { ExportName := e, Name := n, Package := p, Comment := c } hV
    exact ⟨{ td with Variables := r }, by simp only [Exports.call, Exports.AddVariable, hr],
      hset, hT, hsr, hC⟩
  | AddConstant e n p c =>
    obtain ⟨r, hr, hsr⟩ := insertSortedExport_sorted td.Constants
      { ExportName := e, Name := n, Package := p, Comment := c } hC
    exact ⟨{ td with Constants := r }, by simp only [Exports.call, Exports.AddConstant, hr],
      hset, hT, hV, hsr⟩
  | AddFunction e n p c sig =>
    exact ⟨_, rfl, hset, hT, hV, hC⟩

/-- A sequence of calls on such a registry does not panic and leaves such a registry. -/
theorem calls_keep_sorted (cs : List Call) (td : Exports) (hset : td.importsSet ≠ none)
    (hT : sortedByExportName td.Types) (hV : sortedByExportName td.Variables)
    (hC : sortedByExportName td.Constants) :
    ∃ td1, td.calls cs = some td1 ∧ td1.importsSet ≠ none ∧ sortedByExportName td1.Types ∧
      sortedByExportName td1.Variables ∧ sortedByExportName td1.Constants := by
  induction cs generalizing td with
  | nil => exact ⟨td, rfl, hset, hT, hV, hC⟩
  | cons c cs ih =>
    obtain ⟨td1, h1, hset1, hT1, hV1, hC1⟩ := call_keeps_sorted td c hset hT hV hC
    obtain ⟨td2, h2, hrest⟩ := ih td1 hset1 hT1 hV1 hC1
    exact ⟨td2, by simp only [Exports.calls, h1, h2], hrest⟩

/-- C7: a registry created by `New` goes through every sequence of calls of its methods
without a panic, and after each call of the sequence (after the first `n` calls, for
every `n`) its lists `Types`, `Variables` and `Constants` are non-decreasing by export
name under the byte-wise comparison `strings.Compare`. -/
theorem calls_sorted (pkg : String) (cs : List Call) (n : Nat) :
    ∃ td, (New pkg).calls (cs.take n) = some td ∧ sortedByExportName td.Types ∧
      sortedByExportName td.Variables ∧ sortedByExportName td.Constants := by
  obtain ⟨td, h, _, hrest⟩ := calls_keep_sorted (cs.take n) (New pkg)
    (by simp [New]) List.Pairwise.nil List.Pairwise.nil List.Pairwise.nil
  exact ⟨td, h, hrest⟩

/-- Two records added one after the other are both in the list. -/
theorem insertSortedExport_twice (ts : List Export) (a b : Export) :
    ∃ r1 r2, insertSortedExport ts a = some r1 ∧ insertSortedExport r1 b = some r2 ∧
      r2.length = ts.length + 2 ∧ a ∈ r2 ∧ b ∈ r2 := by
  obtain ⟨r1, h1, hl1, hp1⟩ := insertSortedExport_perm ts a
  obtain ⟨r2, h2, hl2, hp2⟩ := insertSortedExport_perm r1 b
  refine ⟨r1, r2, h1, h2, by omega, ?_, ?_⟩
  · exact hp2.mem_iff.mpr (List.mem_cons_of_mem _ (hp1.mem_iff.mpr (List.mem_cons_self _ _)))
  · exact hp2.mem_iff.mpr (List.mem_cons_self _ _)

/-- C8: for every list `ts` and record `t`, sorted or not and whether or not `ts` holds
a record with the export name of `t`, `insertSortedExport` returns a list of length
`len(ts) + 1` that is a permutation of `ts` with `t` added; and on every registry,
two calls of `AddType` with the export name `X` and the packages `a` and then `b` leave
both records in `Types`, and likewise for `AddVariable` and `AddConstant`. -/
theorem insertSortedExport_keeps_all (ts : List Export) (t : Export) (td : Exports)
    (c : Comment) :
    (∃ r, insertSortedExport ts t = some r ∧ r.length = ts.length + 1 ∧
      r.Perm (t :: ts)) ∧
    (∃ td1 td2, td.AddType "X" "X" "a" c = some td1 ∧ td1.AddType "X" "X" "b" c = some td2 ∧
      td2.Types.length = td.Types.length + 2 ∧
      (⟨"X", "X", "a", c⟩ : Export) ∈ td2.Types ∧ (⟨"X", "X", "b", c⟩ : Export) ∈ td2.Types) ∧
    (∃ td1 td2, td.AddVariable "X" "X" "a" c = some td1 ∧
      td1.AddVariable "X" "X" "b" c = some td2 ∧
      td2.Variables.length = td.Variables.length + 2 ∧
      (⟨"X", "X", "a", c⟩ : Export) ∈ td2.Variables ∧
      (⟨"X", "X", "b", c⟩ : Export) ∈ td2.Variables) ∧
    (∃ td1 td2, td.AddConstant "X" "X" "a" c = some td1 ∧
      td1.AddConstant "X" "X" "b" c = some td2 ∧
      td2.Constants.length = td.Constants.length + 2 ∧
      (⟨"X", "X", "a", c⟩ : Export) ∈ td2.Constants ∧
      (⟨"X", "X", "b", c⟩ : Export) ∈ td2.Constants) := by
  refine ⟨insertSortedExport_perm ts t, ?_, ?_, ?_⟩
  · obtain ⟨r1, r2, h1, h2, hl, ha, hb⟩ :=
      insertSortedExport_twice td.Types ⟨"X", "X", "a", c⟩ ⟨"X", "X", "b", c⟩
    exact ⟨{ td with Types := r1 }, { td with Types := r2 },
      by simp only [Exports.AddType, h1], by simp only [Exports.AddType, h2], hl, ha, hb⟩
  · obtain ⟨r1, r2, h1, h2, hl, ha, hb⟩ :=
      insertSortedExport_twice td.Variables ⟨"X", "X", "a", c⟩ ⟨"X", "X", "b", c⟩
    exact ⟨{ td with Variables := r1 }, { td with Variables := r2 },
      by simp only [Exports.AddVariable, h1], by simp only [Exports.AddVariable, h2],
      hl, ha, hb⟩
  · obtain ⟨r1, r2, h1, h2, hl, ha, hb⟩ :=
      insertSortedExport_twice td.Constants ⟨"X", "X", "a", c⟩ ⟨"X", "X", "b", c⟩
    exact ⟨{ td with Constants := r1 }, { td with Constants := r2 },
      by simp only [Exports.AddConstant, h1], by simp only [Exports.AddConstant, h2],
      hl, ha, hb⟩

/-! ## `AddImport` -/

theorem mem_firstOccurrences (ps : List String) (p : String) :
    p ∈ firstOccurrences ps ↔ p ∈ ps := by
  induction ps with
  | nil => simp [firstOccurrences]
  | cons q ps ih =>
    simp only [firstOccurrences, List.mem_cons, List.mem_filter, ih, decide_eq_true_eq]
    by_cases h : p = q <;> simp [h]

theorem nodup_firstOccurrences (ps : List String) : (firstOccurrences ps).Nodup := by
  induction ps with
  | nil => simp [firstOccurrences]
  | cons q ps ih =>
    simp only [firstOccurrences, List.nodup_cons, List.mem_filter, decide_eq_true_eq]
    exact ⟨fun h => h.2 rfl, ih.filter _⟩

theorem firstOccurrences_sublist (ps : List String) : (firstOccurrences ps).Sublist ps := by
  induction ps with
  | nil => exact List.Sublist.refl _
  | cons q ps ih => exact ((List.filter_sublist _).trans ih).cons₂ q

/-- A sequence of `AddImport` calls on a registry whose set of imports holds the paths
of its list of imports: no call panics, only that list and that set change, and the
list gets the first occurrences of the paths it does not hold yet. -/
theorem addImports_spec (ps : List String) (td : Exports) (set : Finset String)
    (hs : td.importsSet = some set) (hmem : ∀ p, p ∈ set ↔ p ∈ td.Imports) :
    ∃ set1, td.calls (ps.map Call.AddImport) =
        some { td with
          Imports := td.Imports ++
            (firstOccurrences ps).filter (fun q => decide (q ∉ td.Imports)),
          importsSet := some set1 } ∧
      ∀ p, p ∈ set1 ↔ p ∈ td.Imports ∨ p ∈ ps := by
  induction ps generalizing td set with
  | nil =>
    refine ⟨set, ?_, by simpa using hmem⟩
    simp [Exports.calls, firstOccurrences, ← hs]
  | cons q ps ih =>
    simp only [List.map_cons, Exports.calls, Exports.call, Exports.AddImport, hs]
    by_cases hq : q ∈ set
    · simp only [hq, if_true]
      obtain ⟨set1, h1, hm1⟩ := ih td set hs hmem
      refine ⟨set1, ?_, ?_⟩
      · rw [h1]
        have hqI : q ∈ td.Imports := (hmem q).mp hq
        have hf : (firstOccurrences (q :: ps)).filter (fun x => decide (x ∉ td.Imports)) =
            (firstOccurrences ps).filter (fun x => decide (x ∉ td.Imports)) := by
          simp only [firstOccurrences, List.filter_cons, hqI, not_true_eq_false,
            decide_False, Bool.false_eq_true, if_false, List.filter_filter]
          apply List.filter_congr
          intro x _
          by_cases hx : x ∈ td.Imports
          · simp [hx]
          · have : x ≠ q := fun h => hx (h ▸ hqI)
            simp [hx, this]
        rw [hf]
      · intro p
        rw [hm1 p, List.mem_cons]
        constructor
        · rintro (h | h)
          · exact Or.inl h
          · exact Or.inr (Or.inr h)
        · rintro (h | h | h)
          · exact Or.inl h
          · exact Or.inl (h ▸ (hmem q).mp hq)
          · exact Or.inr h
    · simp only [hq, if_false]
      have hqI : q ∉ td.Imports := fun h => hq ((hmem q).mpr h)
      obtain ⟨set1, h1, hm1⟩ := ih
        { td with importsSet := some (insert q set), Imports := td.Imports ++ [q] }
        (insert q set) rfl (by
          intro p
          simp only [Finset.mem_insert, List.mem_append, List.mem_singleton, hmem p]
          exact or_comm)
      refine ⟨set1, ?_, ?_⟩
      · rw [h1]
        have hf : (firstOccurrences (q :: ps)).filter (fun x => decide (x ∉ td.Imports)) =
            q :: (firstOccurrences ps).filter
              (fun x => decide (x ∉ td.Imports ++ [q])) := by
          simp only [firstOccurrences, List.filter_cons, hqI, not_false_eq_true,
            decide_True, if_true, List.filter_filter, List.cons.injEq, true_and]
          apply List.filter_congr
          intro x _
          by_cases hx : x ∈ td.Imports <;> by_cases hxq : x = q <;> simp [hx, hxq]
        rw [hf]
        simp
      · intro p
        rw [hm1 p]
        simp only [List.mem_append, List.mem_singleton, List.mem_cons]
        tauto

/-- C9: a registry created by `New` goes through every sequence of `AddImport` calls
without a panic, and then its `Imports` list is the sequence of the paths with every
occurrence of a path after its first removed: it has no duplicate, it holds exactly the
paths of the sequence, it is a sublist of the sequence, and `AddImport` of a path of the
sequence leaves the registry as it is. Nothing but the imports changes. -/
theorem AddImport_first_occurrences (pkg : String) (ps : List String) :
    ∃ td, (New pkg).calls (ps.map Call.AddImport) = some td ∧
      td.Imports = firstOccurrences ps ∧ td.Imports.Nodup ∧
      (∀ p, p ∈ td.Imports ↔ p ∈ ps) ∧ td.Imports.Sublist ps ∧
      (∀ p ∈ ps, td.AddImport p = some td) ∧
      td.Types = [] ∧ td.Variables = [] ∧ td.Constants = [] ∧ td.Functions = [] ∧
      td.Pkg = pkg := by
  obtain ⟨set1, h1, hm1⟩ := addImports_spec ps (New pkg) ∅ rfl (by simp [New])
  have hI : (New pkg).Imports ++
      (firstOccurrences ps).filter (fun q => decide (q ∉ (New pkg).Imports)) =
      firstOccurrences ps := by
    simp [New]
  rw [hI] at h1
  refine ⟨_, h1, rfl, nodup_firstOccurrences ps, mem_firstOccurrences ps,
    firstOccurrences_sublist ps, ?_, rfl, rfl, rfl, rfl, rfl⟩
  intro p hp
  have hp1 : p ∈ set1 := (hm1 p).mpr (Or.inr hp)
  simp only [Exports.AddImport, hp1, if_true]

end exports

end Reexporter

namespace Reexporter

namespace config

/-! ## `Filter` -/

/-- A text wrapped in `/` on both ends with more than two bytes has more than two
characters. -/
theorem length_of_wrapped (t : String) (hp : strings.HasPrefix t "/" = true)
    (hs : strings.HasSuffix t "/" = true) (hl : len t > 2) : t.length > 2 := by
  obtain ⟨l⟩ := t
  unfold strings.HasPrefix at hp
  unfold strings.HasSuffix at hs
  unfold len utf8Bytes at hl
  simp only [String.length]
  match l, hp, hs, hl with
  | [], hp, _, _ => simp at hp
  | [a], hp, _, hl =>
    have ha : '/' = a := by simpa using hp
    subst ha
    revert hl
    decide
  | [a, b], hp, hs, hl =>
    have ha : '/' = a := by
      have : ("/".data.isPrefixOf [a, b]) = true := hp
      simpa [List.isPrefixOf] using this
    have hb : '/' = b := by
      have : ("/".data.isSuffixOf [a, b]) = true := hs
      simpa [List.isSuffixOf, List.isPrefixOf] using this
    subst ha hb
    revert hl
    decide
  | _ :: _ :: _ :: _, _, _, _ => simp

/-- C10: for a raw text `t` that is not both longer than two characters and wrapped in
`/` on both ends, `UnmarshalText` on the zero filter succeeds and leaves the exact
filter for `t`: `Match(s)` is true if and only if `s = t`, so `Match(t)` is true and
`Match(t + "x")` is false. -/
theorem UnmarshalText_exact (compile : String → Except String Regexp) (t : String)
    (h : ¬ (t.length > 2 ∧ strings.HasPrefix t "/" = true ∧
      strings.HasSuffix t "/" = true)) :
    Filter.zero.UnmarshalText compile t = ({ text := t, regex := none }, none) ∧
    (∀ s, (Filter.zero.UnmarshalText compile t).1.Match s = true ↔ s = t) ∧
    (Filter.zero.UnmarshalText compile t).1.Match t = true ∧
    (Filter.zero.UnmarshalText compile t).1.Match (t ++ "x") = false := by
  have hcond : (strings.HasPrefix t "/" && strings.HasSuffix t "/" &&
      decide (len t > 2)) = false := by
    by_contra hc
    simp only [Bool.not_eq_false, Bool.and_eq_true, decide_eq_true_eq] at hc
    exact h ⟨length_of_wrapped t hc.1.1 hc.1.2 hc.2, hc.1.1, hc.1.2⟩
  have heq : Filter.zero.UnmarshalText compile t = ({ text := t, regex := none }, none) := by
    unfold Filter.UnmarshalText
    simp only [hcond]
    rfl
  rw [heq]
  refine ⟨rfl, fun s => by simp [Filter.Match], by simp [Filter.Match], ?_⟩
  have hne : t ++ "x" ≠ t := by
    intro hcon
    have hlen := congrArg String.length hcon
    rw [String.length_append] at hlen
    have : "x".length = 1 := rfl
    omega
  simp [Filter.Match, hne]

/-- Witness of C10: the texts `//`, `/` and the empty text give exact filters, whatever
the regular-expression compiler does. -/
theorem UnmarshalText_exact_witness :
    (¬ ("//".length > 2 ∧ strings.HasPrefix "//" "/" = true ∧
      strings.HasSuffix "//" "/" = true)) ∧
    (Filter.zero.UnmarshalText (fun _ => .error "no compiler") "//").1.Match "//" = true ∧
    (Filter.zero.UnmarshalText (fun _ => .error "no compiler") "//").1.Match "//x" = false :=
  ⟨by decide,
   (UnmarshalText_exact (fun _ => .error "no compiler") "//" (by decide)).2.2.1,
   (UnmarshalText_exact (fun _ => .error "no compiler") "//" (by decide)).2.2.2⟩

end config

end Reexporter

namespace Reexporter

namespace config

/-! ## Regular-expression filters -/

theorem data_wrapped (p : String) : ("/" ++ p ++ "/").data = '/' :: (p.data ++ ['/']) := by
  simp [String.data_append]

theorem utf8Bytes_pos (p : String) (hp : p ≠ "") : 0 < (utf8Bytes p).length := by
  obtain ⟨l⟩ := p
  cases l with
  | nil => exact absurd rfl hp
  | cons c cs =>
    have hc : 0 < (String.utf8EncodeChar c).length := by
      rw [String.length_utf8EncodeChar]
      exact Char.utf8Size_pos c
    simp only [utf8Bytes, List.flatMap_cons, List.length_append, List.length_map]
    omega

theorem len_wrapped (p : String) : len ("/" ++ p ++ "/") = len p + 2 := by
  unfold len utf8Bytes
  rw [data_wrapped]
  simp only [List.flatMap_cons, List.flatMap_append, List.length_append, List.length_map,
    String.length_utf8EncodeChar, List.flatMap_nil, List.length_nil]
  have : Char.utf8Size '/' = 1 := by decide
  omega

/-- The text `/p/` with `p` not empty passes the guard of `UnmarshalText`, and the
slice taken of it is `p`. -/
theorem wrapped_guard (p : String) (hp : p ≠ "") :
    (strings.HasPrefix ("/" ++ p ++ "/") "/" && strings.HasSuffix ("/" ++ p ++ "/") "/" &&
      decide (len ("/" ++ p ++ "/") > 2)) = true ∧
    innerText ("/" ++ p ++ "/") = p := by
  refine ⟨?_, ?_⟩
  · have h1 : strings.HasPrefix ("/" ++ p ++ "/") "/" = true := by
      unfold strings.HasPrefix
      rw [data_wrapped]
      simp [List.isPrefixOf]
    have h2 : strings.HasSuffix ("/" ++ p ++ "/") "/" = true := by
      unfold strings.HasSuffix
      rw [data_wrapped, List.isSuffixOf_iff_suffix]
      exact ⟨'/' :: p.data, by simp⟩
    have h3 : len ("/" ++ p ++ "/") > 2 := by
      rw [len_wrapped]
      have := utf8Bytes_pos p hp
      unfold len
      omega
    simp [h1, h2, h3]
  · unfold innerText
    rw [data_wrapped]
    simp

/-- C11: for a pattern `p` that is not empty, `UnmarshalText` on the zero filter with the
raw text `/p/` hands `p` to the compiler of regular expressions. When `p` compiles to
`re`, construction succeeds and `Match(s)` is what `re` answers for `s`, for every `s`
and so for the raw text itself; when `p` does not compile, construction fails with the
error of the compiler. -/
theorem UnmarshalText_regex (compile : String → Except String Regexp) (p : String)
    (hp : p ≠ "") :
    (∀ re, compile p = .ok re →
      Filter.zero.UnmarshalText compile ("/" ++ p ++ "/") =
        ({ text := "/" ++ p ++ "/", regex := some re }, none) ∧
      (∀ s, (Filter.zero.UnmarshalText compile ("/" ++ p ++ "/")).1.Match s =
        re.MatchString s) ∧
      (Filter.zero.UnmarshalText compile ("/" ++ p ++ "/")).1.Match ("/" ++ p ++ "/") =
        re.MatchString ("/" ++ p ++ "/")) ∧
    (∀ err, compile p = .error err →
      (Filter.zero.UnmarshalText compile ("/" ++ p ++ "/")).2 = some err) := by
  obtain ⟨hg, hi⟩ := wrapped_guard p hp
  constructor
  · intro re hre
    have heq : Filter.zero.UnmarshalText compile ("/" ++ p ++ "/") =
        ({ text := "/" ++ p ++ "/", regex := some re }, none) := by
      unfold Filter.UnmarshalText
      simp only [hg, if_true, hi, hre]
    rw [heq]
    exact ⟨rfl, fun s => rfl, rfl⟩
  · intro err herr
    unfold Filter.UnmarshalText
    simp only [hg, if_true, hi, herr]

/-- Witness of C11: with a compiler that accepts `a+` as the expression matching the
texts that contain the letter `a` and rejects everything else, the filter built from
`/a+/` matches `banana` and does not match `/+/`, and the filter for `/(/` is not
built. -/
theorem UnmarshalText_regex_witness :
    "a+" ≠ "" ∧
    (Filter.zero.UnmarshalText exampleCompile "/a+/").1.Match "banana" = true ∧
    (Filter.zero.UnmarshalText exampleCompile "/a+/").1.Match "/+/" = false ∧
    (Filter.zero.UnmarshalText exampleCompile "/(/").2 = some "missing closing )" :=
  ⟨by decide,
   ((UnmarshalText_regex exampleCompile "a+" (by decide)).1
      ⟨fun s => s.data.contains 'a'⟩ rfl).2.1 "banana" ▸ by decide,
   ((UnmarshalText_regex exampleCompile "a+" (by decide)).1
      ⟨fun s => s.data.contains 'a'⟩ rfl).2.1 "/+/" ▸ by decide,
   (UnmarshalText_regex exampleCompile "(" (by decide)).2 "missing closing )" rfl⟩

end config

end Reexporter

namespace Reexporter

namespace exports

/-! ## Parameters and signatures -/

/-- What `strings.CutPrefix` leaves of a text that starts with `...`, put after `...`,
is the text. -/
theorem cutPrefix_dots (ty : String) (h : strings.HasPrefix ty "..." = true) :
    "..." ++ (strings.CutPrefix ty "...").1 = ty := by
  unfold strings.CutPrefix
  rw [if_pos h]
  unfold strings.HasPrefix at h
  rw [List.isPrefixOf_iff_prefix] at h
  obtain ⟨t, ht⟩ := h
  apply String.ext
  rw [String.data_append, ← ht]
  simp

theorem cutPrefix_snd (ty : String) :
    (strings.CutPrefix ty "...").2 = strings.HasPrefix ty "..." := by
  unfold strings.CutPrefix
  cases h : strings.HasPrefix ty "..." <;> simp

theorem cutPrefix_no_dots (ty : String) (h : strings.HasPrefix ty "..." = false) :
    (strings.CutPrefix ty "...").1 = ty := by
  unfold strings.CutPrefix
  simp [h]

/-- The loops `sig.X = append(sig.X, parameterFromField(field)...)` over the fields of
a list add the descriptors of the fields one after the other. -/
theorem foldl_types (fields : List ast.Field) (sig : FunctionSignature) :
    fields.foldl
      (fun sig field => { sig with Types := sig.Types ++ parameterFromField field }) sig =
      { sig with Types := sig.Types ++ fields.flatMap parameterFromField } := by
  induction fields generalizing sig with
  | nil => simp
  | cons f fs ih => simp [List.foldl_cons, ih, List.flatMap_cons, List.append_assoc]

theorem foldl_parameters (fields : List ast.Field) (sig : FunctionSignature) :
    fields.foldl
      (fun sig field => { sig with Parameters := sig.Parameters ++ parameterFromField field })
      sig =
      { sig with Parameters := sig.Parameters ++ fields.flatMap parameterFromField } := by
  induction fields generalizing sig with
  | nil => simp
  | cons f fs ih => simp [List.foldl_cons, ih, List.flatMap_cons, List.append_assoc]

theorem foldl_results (fields : List ast.Field) (sig : FunctionSignature) :
    fields.foldl
      (fun sig field => { sig with Results := sig.Results ++ parameterFromField field }) sig =
      { sig with Results := sig.Results ++ fields.flatMap parameterFromField } := by
  induction fields generalizing sig with
  | nil => simp
  | cons f fs ih => simp [List.foldl_cons, ih, List.flatMap_cons, List.append_assoc]

/-- C15: for a field with the names `names` and the type text `ty`, `parameterFromField`
returns one descriptor per name, in the declared order, and one descriptor with the
empty name when there is no name; every descriptor has `Variadic` true exactly when `ty`
starts with `...`, and as `Type` the text `ty` without that one leading `...` (`ty`
itself otherwise). `ParseFunctionSignature` puts these results one after the other in
field order, separately for the type parameters, the parameters and the results; the
field `a, b T` gives two descriptors, both of type `T`. -/
theorem parameterFromField_descriptors (names : List config.Ident) (ty : String)
    (decl : ast.FuncDecl) :
    (names ≠ [] →
      (parameterFromField ⟨names, ⟨ty⟩⟩).length = names.length ∧
      (parameterFromField ⟨names, ⟨ty⟩⟩).map (fun p => p.Name) =
        names.map (fun n => n.Name)) ∧
    (names = [] → ∃ p, parameterFromField ⟨names, ⟨ty⟩⟩ = [p] ∧ p.Name = "") ∧
    (∀ p ∈ parameterFromField ⟨names, ⟨ty⟩⟩,
      p.Variadic = strings.HasPrefix ty "..." ∧
      (strings.HasPrefix ty "..." = true → "..." ++ p.Type_ = ty) ∧
      (strings.HasPrefix ty "..." = false → p.Type_ = ty)) ∧
    ParseFunctionSignature decl =
      { Types := (match decl.Type_.TypeParams with
          | some l => l.List
          | none => []).flatMap parameterFromField,
        Parameters := (match decl.Type_.Params with
          | some l => l.List
          | none => []).flatMap parameterFromField,
        Results := (match decl.Type_.Results with
          | some l => l.List
          | none => []).flatMap parameterFromField } ∧
    parameterFromField ⟨[⟨"a"⟩, ⟨"b"⟩], ⟨"T"⟩⟩ = [⟨"a", "T", false⟩, ⟨"b", "T", false⟩] := by
  refine ⟨?_, ?_, ?_, ?_, by decide⟩
  · intro hne
    have hlen : ¬ names.length = 0 := by
      intro h
      exact hne (List.length_eq_zero.mp h)
    simp [parameterFromField, hlen, Function.comp_def]
  · intro hnil
    subst hnil
    exact ⟨{ Name := "", Type_ := (strings.CutPrefix ty "...").1,
             Variadic := (strings.CutPrefix ty "...").2 },
      by simp [parameterFromField], rfl⟩
  · intro p hp
    simp only [parameterFromField, List.mem_map] at hp
    obtain ⟨n, _, rfl⟩ := hp
    exact ⟨cutPrefix_snd ty, cutPrefix_dots ty, cutPrefix_no_dots ty⟩
  · unfold ParseFunctionSignature
    cases decl.Type_.TypeParams <;> cases decl.Type_.Params <;> cases decl.Type_.Results <;>
      simp [foldl_types, foldl_parameters, foldl_results]

/-- Witness of C15: the signature of `SumAll[T int | float64](values ...T) T`. -/
theorem parameterFromField_descriptors_witness :
    ParseFunctionSignature declSumAll =
      { Types := [⟨"T", "int | float64", false⟩],
        Parameters := [⟨"values", "T", true⟩],
        Results := [⟨"", "T", false⟩] } :=
  (parameterFromField_descriptors [] "" declSumAll).2.2.2.1.trans (by decide)

/-- C16: the descriptor that `parameterFromField` builds from a field with the name `n`
and the type text `ty` renders back to the declaration: `Parameter()` is `n`, a space
and `ty` when `n` is not empty and `ty` when it is, and `Variable()` is `n` followed
by `...` when `ty` starts with `...` and `n` otherwise; the same holds with the empty
name for the descriptor of a field without a name. For `xs ...int` the texts are
`xs ...int` and `xs...`. -/
theorem Parameter_renders_field (n ty : String) :
    (∃ p, parameterFromField ⟨[⟨n⟩], ⟨ty⟩⟩ = [p] ∧ p.Name = n ∧
      p.Parameter = (if n ≠ "" then n ++ " " ++ ty else ty) ∧
      p.Variable = (if strings.HasPrefix ty "..." = true then n ++ "..." else n)) ∧
    (∃ p, parameterFromField ⟨[], ⟨ty⟩⟩ = [p] ∧ p.Name = "" ∧
      p.Parameter = ty ∧
      p.Variable = (if strings.HasPrefix ty "..." = true then "..." else "")) ∧
    (∃ p, parameterFromField ⟨[⟨"xs"⟩], ⟨"...int"⟩⟩ = [p] ∧ p.Parameter = "xs ...int" ∧
      p.Variable = "xs...") := by
  have key : ∀ m : String,
      (({ Name := m, Type_ := (strings.CutPrefix ty "...").1,
          Variadic := (strings.CutPrefix ty "...").2 } : Parameter).Parameter =
        (if m ≠ "" then m ++ " " ++ ty else ty)) ∧
      (({ Name := m, Type_ := (strings.CutPrefix ty "...").1,
          Variadic := (strings.CutPrefix ty "...").2 } : Parameter).Variable =
        (if strings.HasPrefix ty "..." = true then m ++ "..." else m)) := by
    intro m
    unfold Parameter.Parameter Parameter.Variable
    simp only [cutPrefix_snd]
    cases hv : strings.HasPrefix ty "..."
    · have ht := cutPrefix_no_dots ty hv
      by_cases hm : m = ""
      · subst hm
        simp [ht]
      · simp [ht, hm]
    · have ht := cutPrefix_dots ty hv
      by_cases hm : m = ""
      · subst hm
        simp [ht]
      · simp only [ne_eq, hm, not_false_eq_true, if_true]
        constructor
        · conv_rhs => rw [← ht]
          apply String.ext
          simp [String.data_append]
        · trivial
  refine ⟨⟨_, rfl, rfl, (key n).1, (key n).2⟩, ⟨_, rfl, rfl, ?_, ?_⟩, ⟨_, rfl, by decide, by decide⟩⟩
  · simpa using (key "").1
  · simpa using (key "").2

end exports

end Reexporter

namespace Reexporter

/-! ## Lines of a text -/

theorem foldl_append_eq (l : List String) (acc : String) :
    l.foldl (fun r s => r ++ s) acc = acc ++ String.join l := by
  unfold String.join
  induction l generalizing acc with
  | nil => simp
  | cons a l ih =>
    rw [List.foldl_cons, ih, List.foldl_cons, ih ("" ++ a)]
    simp [String.append_assoc]

theorem join_cons (a : String) (l : List String) :
    String.join (a :: l) = a ++ String.join l := by
  have h := foldl_append_eq (a :: l) ""
  have h2 := foldl_append_eq l ("" ++ a)
  unfold String.join at *
  rw [List.foldl_cons, h2]
  simp

/-- The pieces that `strings.Split` cuts at the line feeds, each followed by a line
feed, make up the text followed by a line feed: no character of the text is lost. -/
theorem splitChars_lines (cur rest : List Char) :
    String.join ((strings.splitChars ['\n'] 0 cur rest).map (fun l => l ++ "\n")) =
      String.mk (cur.reverse ++ rest) ++ "\n" := by
  induction rest generalizing cur with
  | nil => simp [strings.splitChars, join_cons, String.join]
  | cons c cs ih =>
    simp only [strings.splitChars]
    by_cases hc : ['\n'].isPrefixOf (c :: cs) = true
    · have hc2 : c = '\n' := by
        simp only [List.isPrefixOf, Bool.and_eq_true, beq_iff_eq] at hc
        simpa using hc.1.symm
      subst hc2
      rw [if_pos hc]
      simp only [List.length_singleton, Nat.sub_self, List.map_cons, join_cons, ih]
      apply String.ext
      simp [String.data_append]
    · rw [if_neg hc, ih]
      simp

theorem Split_lines (c : String) :
    String.join ((strings.Split c "\n").map (fun l => l ++ "\n")) = c ++ "\n" := by
  unfold strings.Split
  rw [if_neg (by decide)]
  have h := splitChars_lines [] c.data
  simpa using h

namespace exporter

/-! ## `FormatterError` and `Generate` -/

/-- The loop of `FormatterError.Error` writes the lines one after the other, the line at
index `n` under the number `n + 1`. -/
theorem foldl_numbered_lines (lines : List String) (k : Nat) (sb : String) :
    (lines.enumFrom k).foldl
      (fun sb nl => sb ++ ("  " ++ fmt.padInt 4 (nl.1 + 1) ++ ": " ++ nl.2 ++ "\n")) sb =
      sb ++ String.join ((lines.enumFrom (k + 1)).map
        (fun kl => "  " ++ fmt.padInt 4 kl.1 ++ ": " ++ kl.2 ++ "\n")) := by
  induction lines generalizing k sb with
  | nil => simp [String.join]
  | cons l ls ih =>
    simp only [List.enumFrom_cons, List.foldl_cons, List.map_cons, join_cons, ih]
    simp [String.append_assoc]

/-- C17: when the formatter fails on the text `c` with the error `e`, `formatCode`
returns no text and the `FormatterError` with the code `c` that unwraps to `e`. Its
message is `Error formatting generated code: `, the message of `e` and a line feed,
followed, for the lines that splitting `c` at the line feeds gives, numbered from 1 in
their order, by two spaces, the number right-aligned to the width 4, `: `, the line and
a line feed. The lines are all of `c`: each followed by a line feed, they make up `c`
followed by a line feed. -/
theorem formatCode_failure (process : String → Except GoError String) (c : String)
    (e : GoError) (h : process c = .error e) :
    formatCode process c = ("", some (GoError.FormatterError e c)) ∧
    (GoError.FormatterError e c).Unwrap = some e ∧
    (GoError.FormatterError e c).Error =
      "Error formatting generated code: " ++ e.Error ++ "\n" ++
        String.join (((strings.Split c "\n").enumFrom 1).map
          (fun kl => "  " ++ fmt.padInt 4 kl.1 ++ ": " ++ kl.2 ++ "\n")) ∧
    String.join ((strings.Split c "\n").map (fun l => l ++ "\n")) = c ++ "\n" := by
  refine ⟨?_, rfl, ?_, Split_lines c⟩
  · unfold formatCode
    rw [h]
  · simp only [GoError.Error, List.enum]
    rw [foldl_numbered_lines]
    simp [String.append_assoc]

/-- Witness of C17: the message for the two lines `a` and `b`. -/
theorem formatCode_failure_witness :
    (fun _ : String => (Except.error (GoError.other "boom") : Except GoError String))
      "a\nb" = .error (GoError.other "boom") ∧
    (GoError.FormatterError (GoError.other "boom") "a\nb").Error =
      "Error formatting generated code: boom\n     1: a\n     2: b\n" :=
  ⟨rfl,
   (formatCode_failure (fun _ => .error (GoError.other "boom")) "a\nb"
     (GoError.other "boom") rfl).2.2.1.trans (by decide)⟩

/-- The message of a `FormatterError` starts with the header of `FormatterError.Error`. -/
theorem FormatterError_message_header (orig : GoError) (code : String) :
    strings.HasPrefix (GoError.FormatterError orig code).Error
      "Error formatting generated code: " = true := by
  have h : (GoError.FormatterError orig code).Error =
      "Error formatting generated code: " ++ (orig.Error ++ "\n" ++
        String.join (((strings.Split code "\n").enumFrom 1).map
          (fun kl => "  " ++ fmt.padInt 4 kl.1 ++ ": " ++ kl.2 ++ "\n"))) := by
    simp only [GoError.Error, List.enum]
    rw [foldl_numbered_lines]
    simp [String.append_assoc]
  unfold strings.HasPrefix
  rw [h, String.data_append, List.isPrefixOf_iff_prefix]
  exact List.prefix_append _ _

/-- Counterexample to C18: with no entry to process and a template whose execution
fails, `Generate` returns the error of the template engine as it is. That error is not a
`FormatterError`, so it carries no generated text, and its message is the message of the
template engine, which does not have the header that every message of a `FormatterError`
starts with. -/
theorem Generate_render_failure_not_wrapped :
    Exporter.Generate (fun data _ => (data, none))
        (fun _ => .error execError) (fun code => .ok code)
        { Exports := [], Dir := ".", PkgName := "example.com/pkg" } =
      ("", some execError) ∧
    (∀ orig code, execError ≠ GoError.FormatterError orig code) ∧
    execError.Error = "template: :1:44: executing at <.Missing>: no field Missing" ∧
    strings.HasPrefix execError.Error "Error formatting generated code: " = false ∧
    (∀ orig code, strings.HasPrefix (GoError.FormatterError orig code).Error
      "Error formatting generated code: " = true) := by
  refine ⟨by rfl, ?_, rfl, by decide, FormatterError_message_header⟩
  intro orig code h
  cases h

/-- C18, amended: when every entry is processed without an error, the registry being
`data`, and the execution of the template on `data` fails with the error `err`,
`Generate` returns no text and `err` itself, as the template engine gave it; when the
template gives the text `code` and the formatter fails on it with `err`, `Generate`
returns no text and the `FormatterError` with the code `code` that unwraps to `err`,
whose message numbers the lines of `code` from 1. -/
theorem Generate_failures
    (processExport : exports.Exports → config.Export → exports.Exports × Option GoError)
    (execute : exports.Exports → Except GoError String)
    (process : String → Except GoError String) (e : Exporter) (data : exports.Exports)
    (hdata : processExports processExport e.Exports (exports.New (filepath.Base e.PkgName)) =
      (data, none)) :
    (∀ err, execute data = .error err →
      e.Generate processExport execute process = ("", some err)) ∧
    (∀ code err, execute data = .ok code → process code = .error err →
      e.Generate processExport execute process =
        ("", some (GoError.FormatterError err code)) ∧
      (GoError.FormatterError err code).Unwrap = some err ∧
      (GoError.FormatterError err code).Error =
        "Error formatting generated code: " ++ err.Error ++ "\n" ++
          String.join (((strings.Split code "\n").enumFrom 1).map
            (fun kl => "  " ++ fmt.padInt 4 kl.1 ++ ": " ++ kl.2 ++ "\n"))) := by
  constructor
  · intro err herr
    unfold Exporter.Generate
    simp only [hdata, renderTemplate, herr]
  · intro code err hcode herr
    refine ⟨?_, rfl, ?_⟩
    · unfold Exporter.Generate
      simp only [hdata, renderTemplate, hcode, formatCode, herr]
    · simp only [GoError.Error, List.enum]
      rw [foldl_numbered_lines]
      simp [String.append_assoc]

/-- Witness of C18, amended: an exporter without entries, once with a template whose
execution fails and once with a formatter that fails on the text `package pkg`. -/
theorem Generate_failures_witness :
    processExports (fun data _ => (data, none)) []
      (exports.New (filepath.Base "example.com/pkg")) = (exports.New "pkg", none) ∧
    Exporter.Generate (fun data _ => (data, none))
        (fun _ => .error execError) (fun code => .ok code)
        { Exports := [], Dir := ".", PkgName := "example.com/pkg" } =
      ("", some execError) ∧
    Exporter.Generate (fun data _ => (data, none))
        (fun _ => .ok "package pkg") (fun _ => .error (GoError.other "bad syntax"))
        { Exports := [], Dir := ".", PkgName := "example.com/pkg" } =
      ("", some (GoError.FormatterError (GoError.other "bad syntax") "package pkg")) :=
  ⟨by decide,
   (Generate_failures (fun data _ => (data, none))
     (fun _ => .error execError) (fun code => .ok code)
     { Exports := [], Dir := ".", PkgName := "example.com/pkg" } (exports.New "pkg")
     (by decide)).1 execError rfl,
   ((Generate_failures (fun data _ => (data, none))
     (fun _ => .ok "package pkg") (fun _ => .error (GoError.other "bad syntax"))
     { Exports := [], Dir := ".", PkgName := "example.com/pkg" } (exports.New "pkg")
     (by decide)).2 "package pkg" (GoError.other "bad syntax") rfl rfl).1⟩

end exporter

end Reexporter

namespace Reexporter

/-! ## `templateParenthesize` -/

/-- The one byte of a character below 128 is its number. -/
theorem utf8Bytes_ascii_pair (c0 c1 : Char) (h0 : c0.toNat < 128) (h1 : c1.toNat < 128) :
    utf8Bytes (String.mk [c0, c1]) = [c0.toNat, c1.toNat] := by
  have key : ∀ c : Char, c.toNat < 128 →
      (String.utf8EncodeChar c).map UInt8.toNat = [c.toNat] := by
    intro c hc
    have hv : c.val ≤ 0x7f := by
      rw [UInt32.le_def]
      have : c.val.val.val = c.toNat := rfl
      show c.val.val.val ≤ 127
      omega
    unfold String.utf8EncodeChar
    simp only [hv, if_true, List.map_cons, List.map_nil]
    congr 1
    show (c.val.toUInt8).toNat = c.toNat
    simp only [UInt32.toUInt8, Nat.toUInt8, UInt8.ofNat, UInt8.toNat, Fin.ofNat]
    show c.val.toNat % 256 = c.toNat
    have : c.val.toNat = c.toNat := rfl
    omega
  simp [utf8Bytes, key c0 h0, key c1 h1]

theorem byteToString_toNat (c : Char) : byteToString c.toNat = String.singleton c := by
  unfold byteToString
  rw [Char.ofNat_toNat]

namespace exporter

/-- The condition that `templateParenthesize` computes from its second parameter of
three is the condition of its description. -/
theorem templateParenthesize_three (sprint : Value → String) (b : String) (c : Value)
    (s : String) :
    templateParenthesize sprint [Value.string b, c, Value.string s] =
      if conditionHolds c = true then
        match (utf8Bytes b)[0]?, (utf8Bytes b)[1]? with
        | some b0, some b1 => some (byteToString b0 ++ s ++ byteToString b1)
        | _, _ => none
      else some s := by
  cases c with
  | nil => simp [templateParenthesize, conditionHolds, Value.IsValid, Value.Kind]
  | bool v => cases v <;> simp [templateParenthesize, conditionHolds]
  | int v =>
    by_cases hv : v = 0 <;> simp [templateParenthesize, conditionHolds, hv]
  | string v =>
    by_cases hv : v = "" <;> simp [templateParenthesize, conditionHolds, hv]
  | other kind isZero n =>
    by_cases hk : kind = reflect.Kind.Slice ∨ kind = reflect.Kind.Map ∨
        kind = reflect.Kind.Array
    · by_cases hn : n = 0 <;>
        simp [templateParenthesize, conditionHolds, Value.IsValid, Value.Kind, Value.Len,
          Value.IsZero, hk, hn]
    · cases isZero <;>
        simp [templateParenthesize, conditionHolds, Value.IsValid, Value.Kind, Value.Len,
          Value.IsZero, hk]

/-- What `templateParenthesize` returns for a bracket string `b` with the bytes `b0` and
`b1` at the indices 0 and 1: with three parameters `string(b0)`, `s` and `string(b1)`
when the condition of the description holds and `s` when it does not, with two
parameters always the wrapped text, and with one parameter `(`, `s` and `)`. When `b`
is made of two characters below 128, `string(b0)` and `string(b1)` are these
characters. -/
theorem templateParenthesize_bytes (sprint : Value → String) (b : String) (c : Value)
    (s : String) :
    (∀ b0 b1, (utf8Bytes b)[0]? = some b0 → (utf8Bytes b)[1]? = some b1 →
      templateParenthesize sprint [Value.string b, c, Value.string s] =
        some (if conditionHolds c = true then byteToString b0 ++ s ++ byteToString b1
              else s) ∧
      templateParenthesize sprint [Value.string b, Value.string s] =
        some (byteToString b0 ++ s ++ byteToString b1)) ∧
    (∀ c0 c1 : Char, b = String.mk [c0, c1] → c0.toNat < 128 → c1.toNat < 128 →
      templateParenthesize sprint [Value.string b, c, Value.string s] =
        some (if conditionHolds c = true then
                String.singleton c0 ++ s ++ String.singleton c1
              else s) ∧
      templateParenthesize sprint [Value.string b, Value.string s] =
        some (String.singleton c0 ++ s ++ String.singleton c1)) ∧
    templateParenthesize sprint [Value.string s] = some ("(" ++ s ++ ")") := by
  have hbytes : ∀ b0 b1, (utf8Bytes b)[0]? = some b0 → (utf8Bytes b)[1]? = some b1 →
      templateParenthesize sprint [Value.string b, c, Value.string s] =
        some (if conditionHolds c = true then byteToString b0 ++ s ++ byteToString b1
              else s) ∧
      templateParenthesize sprint [Value.string b, Value.string s] =
        some (byteToString b0 ++ s ++ byteToString b1) := by
    intro b0 b1 h0 h1
    constructor
    · rw [templateParenthesize_three, h0, h1]
      split_ifs <;> rfl
    · simp [templateParenthesize, h0, h1]
  refine ⟨hbytes, ?_, ?_⟩
  · intro c0 c1 hb h0 h1
    have hu := utf8Bytes_ascii_pair c0 c1 h0 h1
    have := hbytes c0.toNat c1.toNat (by rw [hb, hu]; rfl) (by rw [hb, hu]; rfl)
    simpa only [byteToString_toNat] using this
  · have hp : utf8Bytes "()" = [40, 41] := by decide
    have h40 : byteToString 40 = "(" := by decide
    have h41 : byteToString 41 = ")" := by decide
    simp [templateParenthesize, hp, h40, h41]

/-- C19: the bracket string `«»` has two characters, but `templateParenthesize` with
these brackets and a condition that holds returns `Â`, `s` and `«`, not `«`, `s` and
`»`: the code takes the first two bytes of the bracket string, each as a character of
its own, instead of its two characters. The condition itself is read as described, and
the brackets `[]`, two characters below 128, come out as they are. -/
theorem templateParenthesize_brackets_are_bytes (sprint : Value → String) (c : Value)
    (s : String) :
    "«»".length = 2 ∧
    templateParenthesize sprint [Value.string "«»", c, Value.string s] =
      some (if conditionHolds c = true then "Â" ++ s ++ "«" else s) ∧
    templateParenthesize sprint [Value.string "«»", Value.bool true, Value.string s] ≠
      some ("«" ++ s ++ "»") ∧
    templateParenthesize (fun _ => "") [Value.string "«»", Value.bool true,
      Value.string "x"] = some "Âx«" ∧
    templateParenthesize sprint [Value.string "[]", c, Value.string s] =
      some (if conditionHolds c = true then "[" ++ s ++ "]" else s) := by
  have hA : byteToString 194 = "Â" := by decide
  have hB : byteToString 171 = "«" := by decide
  have hgen : ∀ c : Value,
      templateParenthesize sprint [Value.string "«»", c, Value.string s] =
        some (if conditionHolds c = true then "Â" ++ s ++ "«" else s) := by
    intro c
    have h := ((templateParenthesize_bytes sprint "«»" c s).1 194 171
      (by decide) (by decide)).1
    rw [hA, hB] at h
    exact h
  refine ⟨by decide, hgen c, ?_, by decide, ?_⟩
  · rw [hgen (Value.bool true)]
    intro h
    have hd := congrArg String.data (Option.some.inj h)
    simp only [conditionHolds, if_true, String.data_append] at hd
    have hc : 'Â' = '«' := by
      have := List.head_eq_of_cons_eq hd
      exact this
    exact absurd hc (by decide)
  · have h := ((templateParenthesize_bytes sprint "[]" c s).2.1 '[' ']' rfl
      (by decide) (by decide)).1
    exact h

/-- C20: a call with two parameters does not read a condition: whatever the first
parameter is when it is not a string, `true` or `false` included, the result is `(`,
the string and `)`. So `templateParenthesize(false, s)` is not `s`. -/
theorem templateParenthesize_two_ignores_condition (sprint : Value → String) (s : String) :
    templateParenthesize sprint [Value.bool false, Value.string s] =
      some ("(" ++ s ++ ")") ∧
    templateParenthesize sprint [Value.bool true, Value.string s] =
      some ("(" ++ s ++ ")") ∧
    templateParenthesize sprint [Value.bool false, Value.string s] ≠ some s ∧
    templateParenthesize (fun _ => "") [Value.bool false, Value.string "x"] =
      some "(x)" := by
  have hp : utf8Bytes "()" = [40, 41] := by decide
  have h40 : byteToString 40 = "(" := by decide
  have h41 : byteToString 41 = ")" := by decide
  have hf : templateParenthesize sprint [Value.bool false, Value.string s] =
      some ("(" ++ s ++ ")") := by
    simp [templateParenthesize, hp, h40, h41]
  refine ⟨hf, by simp [templateParenthesize, hp, h40, h41], ?_, by decide⟩
  rw [hf]
  intro h
  have hlen := congrArg String.length (Option.some.inj h)
  simp only [String.length_append] at hlen
  have h1 : "(".length = 1 := rfl
  have h2 : ")".length = 1 := rfl
  omega

end exporter

end Reexporter

namespace Reexporter

namespace exporter

/-! ## `inspectAST` -/

/-- The method `IncludeFile` returns false exactly when a file filter matches. -/
theorem IncludeFile_eq_false_iff (es : config.Export) (fn : String) :
    es.IncludeFile fn = false ↔ ∃ f ∈ es.Exclude.Files, f.Match fn = true := by
  simp [config.Export.IncludeFile, List.any_eq_true]

/-- C12: for a node at a position of the file `fileName`, when a file filter of the
entry matches the base name of `fileName` without the extension `.go`, `IncludeFile`
returns false for that name and `inspectAST` returns true with the registry as it was,
whatever the node declares; and `IncludeFile` returns false exactly when a file filter
matches. -/
theorem inspectAST_excluded_file (isUpper : Char → Bool) (fset : FileSet)
    (data : exports.Exports) (pkg : Package) (export_ : config.Export) (n : ast.Node)
    (fileName : String) (hpos : fset n.Pos = some fileName)
    (hmatch : ∃ f ∈ export_.Exclude.Files,
      f.Match (strings.TrimSuffix (filepath.Base fileName) ".go") = true) :
    inspectAST isUpper fset data pkg export_ (some n) = some (data, true) ∧
    export_.IncludeFile (strings.TrimSuffix (filepath.Base fileName) ".go") = false ∧
    (∀ fn, export_.IncludeFile fn = false ↔ ∃ f ∈ export_.Exclude.Files, f.Match fn = true) := by
  have hinc := (IncludeFile_eq_false_iff export_ _).mpr hmatch
  refine ⟨?_, hinc, IncludeFile_eq_false_iff export_⟩
  unfold inspectAST
  simp only [hpos, hinc, Bool.not_false, if_true]

/-- Witness of C12: the declaration `type MyEnum int` in the file `aa.go` leaves the
registry as it was under the entry with the file filter `aa`, and is recorded under the
same entry without the file filter. -/
theorem inspectAST_excluded_file_witness :
    (aaFileSet declMyEnum.Pos = some "/src/example/a/aa/aa.go" ∧
      ∃ f ∈ fileFilterEntry.Exclude.Files,
        f.Match (strings.TrimSuffix (filepath.Base "/src/example/a/aa/aa.go") ".go") = true) ∧
    inspectAST Char.isUpper aaFileSet (exports.New "pkg") aaPackage fileFilterEntry
      (some declMyEnum) = some (exports.New "pkg", true) ∧
    (inspectAST Char.isUpper aaFileSet (exports.New "pkg") aaPackage config.plainEntry
      (some declMyEnum)).map (fun r => (r.1.Types.map (fun t => t.ExportName), r.2)) =
      some (["MyEnum"], false) :=
  ⟨⟨rfl, config.exactFilter "aa", by simp [fileFilterEntry], by decide⟩,
   (inspectAST_excluded_file Char.isUpper aaFileSet (exports.New "pkg") aaPackage
     fileFilterEntry declMyEnum "/src/example/a/aa/aa.go" rfl
     ⟨config.exactFilter "aa", by simp [fileFilterEntry], by decide⟩).1,
   by decide⟩

/-! ### Value declarations -/

theorem AddConstant_perm (td : exports.Exports) (e n p : String) (c : exports.Comment) :
    ∃ r, td.AddConstant e n p c = some { td with Constants := r } ∧
      r.Perm (td.Constants ++ [⟨e, n, p, c⟩]) := by
  obtain ⟨r, hr, _, hp⟩ := exports.insertSortedExport_perm td.Constants ⟨e, n, p, c⟩
  refine ⟨r, by simp only [exports.Exports.AddConstant, hr], ?_⟩
  exact hp.trans (List.perm_append_singleton _ _).symm

theorem AddVariable_perm (td : exports.Exports) (e n p : String) (c : exports.Comment) :
    ∃ r, td.AddVariable e n p c = some { td with Variables := r } ∧
      r.Perm (td.Variables ++ [⟨e, n, p, c⟩]) := by
  obtain ⟨r, hr, _, hp⟩ := exports.insertSortedExport_perm td.Variables ⟨e, n, p, c⟩
  refine ⟨r, by simp only [exports.Exports.AddVariable, hr], ?_⟩
  exact hp.trans (List.perm_append_singleton _ _).symm

/-- The loop over the names of a value specification of a constant declaration. -/
theorem inspectNames_const (isUpper : Char → Bool) (pkg : Package) (export_ : config.Export)
    (d : ast.GenDecl) (comment : Option ast.CommentGroup) (hTok : d.Tok = ast.Token.CONST)
    (names : List config.Ident) (data : exports.Exports) :
    ∃ r, inspectNames isUpper pkg export_ d comment (names.map some) data =
        some { data with Constants := r } ∧
      r.Perm (data.Constants ++
        acceptedRecords isUpper pkg export_ d.Doc config.ExportTypeConstant names comment) := by
  induction names generalizing data with
  | nil => exact ⟨data.Constants, rfl, by simp [acceptedRecords]⟩
  | cons id rest ih =>
    simp only [List.map_cons, inspectNames, hTok, if_true]
    by_cases hok : (export_.ExportAs isUpper (some id) config.ExportTypeConstant).2 = true
    · obtain ⟨r1, h1, hp1⟩ := AddConstant_perm data
        (export_.ExportAs isUpper (some id) config.ExportTypeConstant).1 id.Name
        (filepath.Base pkg.ID) (exports.ParseComment d.Doc comment)
      obtain ⟨r2, h2, hp2⟩ := ih { data with Constants := r1 }
      refine ⟨r2, ?_, ?_⟩
      · have hne : (config.ExportTypeConstant == config.ExportTypeVariable) = false := by
          decide
        have heq : (config.ExportTypeConstant == config.ExportTypeConstant) = true := by
          decide
        simp only [hok, if_true, hne, heq, h1, h2, Bool.false_eq_true, if_false]
      · refine hp2.trans ?_
        simp only [acceptedRecords, List.filterMap_cons, hok, if_true]
        refine (List.Perm.append_right _ hp1).trans ?_
        simp
    · obtain ⟨r2, h2, hp2⟩ := ih data
      refine ⟨r2, ?_, ?_⟩
      · simp only [hok, Bool.false_eq_true, if_false, h2]
      · simpa only [acceptedRecords, List.filterMap_cons, hok, Bool.false_eq_true,
          if_false] using hp2

/-- The loop over the names of a value specification of a declaration that is not a
constant declaration. -/
theorem inspectNames_var (isUpper : Char → Bool) (pkg : Package) (export_ : config.Export)
    (d : ast.GenDecl) (comment : Option ast.CommentGroup) (hTok : d.Tok ≠ ast.Token.CONST)
    (names : List config.Ident) (data : exports.Exports) :
    ∃ r, inspectNames isUpper pkg export_ d comment (names.map some) data =
        some { data with Variables := r } ∧
      r.Perm (data.Variables ++
        acceptedRecords isUpper pkg export_ d.Doc config.ExportTypeVariable names comment) := by
  induction names generalizing data with
  | nil => exact ⟨data.Variables, rfl, by simp [acceptedRecords]⟩
  | cons id rest ih =>
    simp only [List.map_cons, inspectNames, hTok, if_false]
    by_cases hok : (export_.ExportAs isUpper (some id) config.ExportTypeVariable).2 = true
    · obtain ⟨r1, h1, hp1⟩ := AddVariable_perm data
        (export_.ExportAs isUpper (some id) config.ExportTypeVariable).1 id.Name
        (filepath.Base pkg.ID) (exports.ParseComment d.Doc comment)
      obtain ⟨r2, h2, hp2⟩ := ih { data with Variables := r1 }
      refine ⟨r2, ?_, ?_⟩
      · have heq : (config.ExportTypeVariable == config.ExportTypeVariable) = true := by
          decide
        simp only [hok, if_true, heq, h1, h2]
      · refine hp2.trans ?_
        simp only [acceptedRecords, List.filterMap_cons, hok, if_true]
        refine (List.Perm.append_right _ hp1).trans ?_
        simp
    · obtain ⟨r2, h2, hp2⟩ := ih data
      refine ⟨r2, ?_, ?_⟩
      · simp only [hok, Bool.false_eq_true, if_false, h2]
      · simpa only [acceptedRecords, List.filterMap_cons, hok, Bool.false_eq_true,
          if_false] using hp2

/-- The loop over the specifications of a constant declaration that are all value
specifications. -/
theorem inspectSpecs_const (isUpper : Char → Bool) (pkg : Package) (export_ : config.Export)
    (d : ast.GenDecl) (hTok : d.Tok = ast.Token.CONST)
    (vs : List (List config.Ident × Option ast.CommentGroup)) (data : exports.Exports) :
    ∃ r, inspectSpecs isUpper pkg export_ d
        (vs.map (fun v => ast.Spec.ValueSpec (v.1.map some) v.2)) data =
        some { data with Constants := r } ∧
      r.Perm (data.Constants ++ vs.flatMap (fun v =>
        acceptedRecords isUpper pkg export_ d.Doc config.ExportTypeConstant v.1 v.2)) := by
  induction vs generalizing data with
  | nil => exact ⟨data.Constants, rfl, by simp⟩
  | cons v rest ih =>
    obtain ⟨r1, h1, hp1⟩ := inspectNames_const isUpper pkg export_ d v.2 hTok v.1 data
    obtain ⟨r2, h2, hp2⟩ := ih { data with Constants := r1 }
    refine ⟨r2, ?_, ?_⟩
    · simp only [List.map_cons, inspectSpecs, h1, h2]
    · refine hp2.trans ?_
      simp only [List.flatMap_cons]
      refine (List.Perm.append_right _ hp1).trans ?_
      simp

/-- The loop over the specifications of a declaration that is not a constant
declaration and whose specifications are all value specifications. -/
theorem inspectSpecs_var (isUpper : Char → Bool) (pkg : Package) (export_ : config.Export)
    (d : ast.GenDecl) (hTok : d.Tok ≠ ast.Token.CONST)
    (vs : List (List config.Ident × Option ast.CommentGroup)) (data : exports.Exports) :
    ∃ r, inspectSpecs isUpper pkg export_ d
        (vs.map (fun v => ast.Spec.ValueSpec (v.1.map some) v.2)) data =
        some { data with Variables := r } ∧
      r.Perm (data.Variables ++ vs.flatMap (fun v =>
        acceptedRecords isUpper pkg export_ d.Doc config.ExportTypeVariable v.1 v.2)) := by
  induction vs generalizing data with
  | nil => exact ⟨data.Variables, rfl, by simp⟩
  | cons v rest ih =>
    obtain ⟨r1, h1, hp1⟩ := inspectNames_var isUpper pkg export_ d v.2 hTok v.1 data
    obtain ⟨r2, h2, hp2⟩ := ih { data with Variables := r1 }
    refine ⟨r2, ?_, ?_⟩
    · simp only [List.map_cons, inspectSpecs, h1, h2]
    · refine hp2.trans ?_
      simp only [List.flatMap_cons]
      refine (List.Perm.append_right _ hp1).trans ?_
      simp

/-- C13: for a value declaration at a position of a file that `IncludeFile` accepts,
with the documentation `doc`, the token `tok` and the value specifications `vs` (the
names and the line comment of each), `inspectAST` does not panic and returns false.
When the token is `const`, the registry it leaves differs from the one before in
`Constants` only, which is a permutation of the old list with one record added for
every name that `ExportAs` accepts under the kind `constant` (the export name is the
name that `ExportAs` returned, the original name the declared one); otherwise it differs
in `Variables` only, in the same way under the kind `variable`. -/
theorem inspectAST_value_declaration (isUpper : Char → Bool) (fset : FileSet)
    (data : exports.Exports) (pkg : Package) (export_ : config.Export) (pos : Nat)
    (doc : Option ast.CommentGroup) (tok : ast.Token)
    (vs : List (List config.Ident × Option ast.CommentGroup)) (fileName : String)
    (hpos : fset pos = some fileName)
    (hinc : export_.IncludeFile (strings.TrimSuffix (filepath.Base fileName) ".go") = true) :
    (tok = ast.Token.CONST →
      ∃ r, inspectAST isUpper fset data pkg export_
          (some (ast.Node.GenDecl pos
            { Doc := doc, Tok := tok,
              Specs := vs.map (fun v => ast.Spec.ValueSpec (v.1.map some) v.2) })) =
          some ({ data with Constants := r }, false) ∧
        r.Perm (data.Constants ++ vs.flatMap (fun v =>
          acceptedRecords isUpper pkg export_ doc config.ExportTypeConstant v.1 v.2))) ∧
    (tok ≠ ast.Token.CONST →
      ∃ r, inspectAST isUpper fset data pkg export_
          (some (ast.Node.GenDecl pos
            { Doc := doc, Tok := tok,
              Specs := vs.map (fun v => ast.Spec.ValueSpec (v.1.map some) v.2) })) =
          some ({ data with Variables := r }, false) ∧
        r.Perm (data.Variables ++ vs.flatMap (fun v =>
          acceptedRecords isUpper pkg export_ doc config.ExportTypeVariable v.1 v.2))) := by
  constructor
  · intro hTok
    obtain ⟨r, hr, hp⟩ := inspectSpecs_const isUpper pkg export_
      { Doc := doc, Tok := tok,
        Specs := vs.map (fun v => ast.Spec.ValueSpec (v.1.map some) v.2) } hTok vs data
    refine ⟨r, ?_, hp⟩
    unfold inspectAST
    simp only [ast.Node.Pos, hpos, hinc, Bool.not_true, Bool.false_eq_true, if_false, hr]
  · intro hTok
    obtain ⟨r, hr, hp⟩ := inspectSpecs_var isUpper pkg export_
      { Doc := doc, Tok := tok,
        Specs := vs.map (fun v => ast.Spec.ValueSpec (v.1.map some) v.2) } hTok vs data
    refine ⟨r, ?_, hp⟩
    unfold inspectAST
    simp only [ast.Node.Pos, hpos, hinc, Bool.not_true, Bool.false_eq_true, if_false, hr]

/-- Witness of C13: the constant declaration with the names `EnumValue2`, `EnumValue1`
and `hidden` leaves the two exported names in `Constants`, sorted, and nothing in
`Variables`. -/
theorem inspectAST_value_declaration_witness :
    (aaFileSet 20 = some "/src/example/a/aa/aa.go" ∧
      config.plainEntry.IncludeFile
        (strings.TrimSuffix (filepath.Base "/src/example/a/aa/aa.go") ".go") = true) ∧
    (∃ r, inspectAST Char.isUpper aaFileSet (exports.New "pkg") aaPackage config.plainEntry
        (some declEnumValues) = some ({ exports.New "pkg" with Constants := r }, false) ∧
      r.Perm ((exports.New "pkg").Constants ++ enumValueSpecs.flatMap (fun v =>
        acceptedRecords Char.isUpper aaPackage config.plainEntry none
          config.ExportTypeConstant v.1 v.2))) ∧
    (inspectAST Char.isUpper aaFileSet (exports.New "pkg") aaPackage config.plainEntry
      (some declEnumValues)).map (fun r =>
        (r.1.Constants.map (fun t => (t.ExportName, t.Name, t.Package)),
         r.1.Variables.length, r.2)) =
      some ([("EnumValue1", "EnumValue1", "aa"), ("EnumValue2", "EnumValue2", "aa")],
        0, false) :=
  ⟨⟨rfl, by decide⟩,
   (inspectAST_value_declaration Char.isUpper aaFileSet (exports.New "pkg") aaPackage
     config.plainEntry 20 none ast.Token.CONST enumValueSpecs "/src/example/a/aa/aa.go"
     rfl (by decide)).1 rfl,
   by decide⟩

/-! ### Function declarations -/

/-- C14: for a function declaration `d` at a position of a file that `IncludeFile`
accepts, `inspectAST` does not panic and returns false. When `d` has no receiver and
`ExportAs` accepts its name under the kind `function`, the registry it leaves differs
from the one before in `Functions` only, which is the old list followed by the record of
the function; when `d` has a receiver or `ExportAs` rejects its name, the registry is as
it was. -/
theorem inspectAST_function_declaration (isUpper : Char → Bool) (fset : FileSet)
    (data : exports.Exports) (pkg : Package) (export_ : config.Export) (pos : Nat)
    (d : ast.FuncDecl) (fileName : String) (hpos : fset pos = some fileName)
    (hinc : export_.IncludeFile (strings.TrimSuffix (filepath.Base fileName) ".go") = true) :
    (∀ id, d.Name = some id → d.Recv = none →
      (export_.ExportAs isUpper (some id) config.ExportTypeFunction).2 = true →
      inspectAST isUpper fset data pkg export_ (some (ast.Node.FuncDecl pos d)) =
        some ({ data with Functions := data.Functions ++
          [{ Export :=
               { ExportName := (export_.ExportAs isUpper (some id) config.ExportTypeFunction).1,
                 Name := id.Name, Package := filepath.Base pkg.ID,
                 Comment := exports.ParseComment d.Doc none },
             Signature := exports.ParseFunctionSignature d }] }, false)) ∧
    ((d.Recv ≠ none ∨ (export_.ExportAs isUpper d.Name config.ExportTypeFunction).2 = false) →
      inspectAST isUpper fset data pkg export_ (some (ast.Node.FuncDecl pos d)) =
        some (data, false)) := by
  constructor
  · intro id hid hrecv hok
    unfold inspectAST
    simp only [ast.Node.Pos, hpos, hinc, Bool.not_true, Bool.false_eq_true, if_false, hid,
      hrecv, hok, Option.isNone_none, Bool.and_self, if_true]
    rfl
  · intro h
    unfold inspectAST
    simp only [ast.Node.Pos, hpos, hinc, Bool.not_true, Bool.false_eq_true, if_false]
    rcases h with h | h
    · have hr : d.Recv.isNone = false := by
        cases hd : d.Recv with
        | none => exact absurd hd h
        | some _ => rfl
      simp [hr]
    · simp [h]

/-- Witness of C14: the function `SayHello` is appended after the function that the
registry holds, and the method `SayHello` is not recorded. -/
theorem inspectAST_function_declaration_witness :
    (aaFileSet 30 = some "/src/example/a/aa/aa.go" ∧
      config.plainEntry.IncludeFile
        (strings.TrimSuffix (filepath.Base "/src/example/a/aa/aa.go") ".go") = true) ∧
    (inspectAST Char.isUpper aaFileSet
      ((exports.New "pkg").AddFunction "Zeta" "Zeta" "zz" ⟨[], ""⟩ ⟨[], [], []⟩) aaPackage
      config.plainEntry (some (ast.Node.FuncDecl 30 (declSayHello none)))).map (fun r =>
        (r.1.Functions.map (fun f => f.Export.ExportName), r.2)) =
      some (["Zeta", "SayHello"], false) ∧
    inspectAST Char.isUpper aaFileSet (exports.New "pkg") aaPackage config.plainEntry
      (some (ast.Node.FuncDecl 30 (declSayHello (some { List := [] })))) =
      some (exports.New "pkg", false) :=
  ⟨⟨rfl, by decide⟩,
   by
    rw [(inspectAST_function_declaration Char.isUpper aaFileSet
      ((exports.New "pkg").AddFunction "Zeta" "Zeta" "zz" ⟨[], ""⟩ ⟨[], [], []⟩) aaPackage
      config.plainEntry 30 (declSayHello none) "/src/example/a/aa/aa.go" rfl (by decide)).1
      { Name := "SayHello" } rfl rfl (by decide)]
    decide,
   (inspectAST_function_declaration Char.isUpper aaFileSet (exports.New "pkg") aaPackage
     config.plainEntry 30 (declSayHello (some { List := [] })) "/src/example/a/aa/aa.go" rfl
     (by decide)).2 (Or.inl (by simp [declSayHello]))⟩

end exporter

end Reexporter

namespace Reexporter

namespace config

/-! ## The nil rename mapping -/

/-- The loop of `FromFile` panics exactly when the merge of one entry does. -/
theorem mergeLoop_eq_none_iff (D : Export) (es : List Export) :
    mergeLoop D es = none ↔ ∃ E ∈ es, mergeEntry D E = none := by
  induction es with
  | nil => simp [mergeLoop]
  | cons E es ih =>
    unfold mergeLoop
    cases hE : mergeEntry D E with
    | none => simp [hE]
    | some M =>
      cases hl : mergeLoop D es with
      | none =>
        have := ih.mp hl
        obtain ⟨E1, hE1, hn⟩ := this
        simp only [true_iff]
        exact ⟨E1, List.mem_cons_of_mem _ hE1, hn⟩
      | some ms =>
        simp only [reduceCtorEq, false_iff, not_exists, not_and]
        intro E1 hE1 hn
        rcases List.mem_cons.mp hE1 with rfl | hmem
        · rw [hE] at hn
          exact absurd hn (by simp)
        · have := ih.mpr ⟨E1, hmem, hn⟩
          rw [hl] at this
          exact absurd this (by simp)

/-- A call of `FromFile` on a decoded configuration panics exactly when an entry has the
nil rename mapping and the default entry has a rename. -/
theorem FromFile_panic_iff (cfg : Config) :
    FromFile (.ok cfg) = .panic ↔
      ∃ E ∈ cfg.Exports, E.Rename = none ∧ cfg.Common.Rename.entries ≠ [] := by
  obtain ⟨D, _, hr, hF⟩ := FromFile_ok_eq cfg
  rw [hF]
  have hiff := mergeLoop_eq_none_iff D cfg.Exports
  simp only [mergeEntry_eq_none_iff, hr] at hiff
  cases hl : mergeLoop D cfg.Exports with
  | none =>
    simp only [true_iff]
    exact hiff.mp hl
  | some ms =>
    simp only [reduceCtorEq, false_iff]
    intro h
    have := hiff.mpr h
    rw [hl] at this
    exact absurd this (by simp)

/-- C22: the configuration whose default entry renames `A` and `B` and whose one entry
declares no rename mapping makes `FromFile` panic in `maps.Copy`, so the loop does not
complete and no merged entry exists; in general `FromFile` panics on a decoded
configuration exactly when an entry has the nil rename mapping and the default entry has
at least one rename. -/
theorem FromFile_nil_rename_panics :
    FromFile (.ok nilRenameConfig) = .panic ∧
    mergeEntry nilRenameConfig.Common nilRenameEntry = none ∧
    (∀ cfg : Config, FromFile (.ok cfg) = .panic ↔
      ∃ E ∈ cfg.Exports, E.Rename = none ∧ cfg.Common.Rename.entries ≠ []) := by
  refine ⟨?_, ?_, FromFile_panic_iff⟩
  · rw [FromFile_panic_iff]
    exact ⟨nilRenameEntry, by simp [nilRenameConfig], rfl, by decide⟩
  · rw [mergeEntry_eq_none_iff]
    exact ⟨rfl, by decide⟩

end config

end Reexporter

namespace Reexporter

theorem bytesCompare_self (a : List Nat) : bytesCompare a a = 0 := by
  induction a with
  | nil => rfl
  | cons x a ih => simp [bytesCompare, ih]

namespace exports

/-! ## The position of an insertion among records of one export name -/

/-- When the records of `before` are below the record `t` by export name and those of
`after` are not, `insertSortedExport` puts `t` between them. -/
theorem insertSortedExport_at_split (before after : List Export) (t : Export)
    (hb : ∀ a ∈ before, strings.Compare a.ExportName t.ExportName < 0)
    (ha : ∀ b ∈ after, 0 ≤ strings.Compare b.ExportName t.ExportName) :
    insertSortedExport (before ++ after) t = some (before ++ t :: after) := by
  have hlt : ∀ (k : Nat) (hk : k < (before ++ after).length), k < before.length →
      strings.Compare (before ++ after)[k].ExportName t.ExportName < 0 := by
    intro k hk hkb
    rw [List.getElem_append_left hkb]
    exact hb _ (List.getElem_mem _)
  have hge : ∀ (k : Nat) (hk : k < (before ++ after).length), before.length ≤ k →
      0 ≤ strings.Compare (before ++ after)[k].ExportName t.ExportName := by
    intro k hk hkb
    rw [List.getElem_append_right hkb]
    exact ha _ (List.getElem_mem _)
  have hpart := binarySearchLoop_partition
    (fun a b : Export => strings.Compare a.ExportName b.ExportName) (before ++ after) t
    (fun a b ha2 hb2 hab hneg => by
      by_cases hbb : b < before.length
      · exact hlt a ha2 (by omega)
      · have := hge b hb2 (by omega)
        have hneg2 : strings.Compare (before ++ after)[b].ExportName t.ExportName < 0 := hneg
        omega)
    (before ++ after).length 0 (before ++ after).length (Nat.le_refl _) (by omega)
    (Nat.zero_le _)
    (fun k _ hk => absurd hk (Nat.not_lt_zero k))
    (fun k hk hle => absurd hk (by omega))
  have hbound := binarySearchLoop_bounds
    (fun a b : Export => strings.Compare a.ExportName b.ExportName) (before ++ after) t
    (before ++ after).length 0 (before ++ after).length (Nat.le_refl _) (by omega)
    (Nat.zero_le _)
  rw [insertSortedExport_eq]
  have hr : (slices.BinarySearchFunc (before ++ after) t
      (fun a b => strings.Compare a.ExportName b.ExportName)).1 =
      slices.binarySearchLoop (fun a b : Export => strings.Compare a.ExportName b.ExportName)
        (before ++ after) t (before ++ after).length 0 (before ++ after).length
        (Nat.le_refl _) (by omega) := rfl
  rw [hr]
  generalize slices.binarySearchLoop
    (fun a b : Export => strings.Compare a.ExportName b.ExportName)
    (before ++ after) t (before ++ after).length 0 (before ++ after).length
    (Nat.le_refl _) (by omega) = r at hpart hbound
  obtain ⟨hlow, hhigh⟩ := hpart
  have hlen : (before ++ after).length = before.length + after.length := List.length_append _ _
  have hreq : r = before.length := by
    rcases Nat.lt_trichotomy r before.length with h | h | h
    · have h1 := hlt r (by omega) h
      have h2 : 0 ≤ strings.Compare (before ++ after)[r].ExportName t.ExportName :=
        hhigh r (by omega) (Nat.le_refl _)
      omega
    · exact h
    · have h1 := hge before.length (by omega) (Nat.le_refl _)
      have h2 : strings.Compare (before ++ after)[before.length].ExportName t.ExportName < 0 :=
        hlow before.length (by omega) h
      omega
  rw [hreq, List.take_left, List.drop_left]
  simp

/-- A sorted list splits, for an export name `e`, into the records below `e`, the
records that compare equal to `e` and the records above `e`. -/
theorem sorted_split (ts : List Export) (e : String) (hs : sortedByExportName ts) :
    ∃ before run rest, ts = before ++ (run ++ rest) ∧
      (∀ a ∈ before, strings.Compare a.ExportName e < 0) ∧
      (∀ b ∈ run, strings.Compare b.ExportName e = 0) ∧
      (∀ c ∈ rest, 0 < strings.Compare c.ExportName e) := by
  induction ts with
  | nil => exact ⟨[], [], [], rfl, by simp, by simp, by simp⟩
  | cons x l ih =>
    obtain ⟨hx, hl⟩ := List.pairwise_cons.mp hs
    obtain ⟨before, run, rest, hsplit, hb, hr, hc⟩ := ih hl
    rcases Int.lt_trichotomy (strings.Compare x.ExportName e) 0 with h | h | h
    · refine ⟨x :: before, run, rest, by rw [hsplit]; rfl, ?_, hr, hc⟩
      intro a ha
      rcases List.mem_cons.mp ha with rfl | ha
      · exact h
      · exact hb a ha
    · have hbnil : before = [] := by
        cases before with
        | nil => rfl
        | cons a before =>
          have ha := hb a (List.mem_cons_self _ _)
          have hxa := hx a (by rw [hsplit]; exact List.mem_cons_self _ _)
          have hsw := bytesCompare_swap (utf8Bytes x.ExportName) (utf8Bytes e)
          have := bytesCompare_lt_of_le_of_lt _ _ _ hxa ha
          unfold strings.Compare at h
          omega
      subst hbnil
      refine ⟨[], x :: run, rest, by rw [hsplit]; rfl, by simp, ?_, hc⟩
      intro b hb2
      rcases List.mem_cons.mp hb2 with rfl | hb2
      · exact h
      · exact hr b hb2
    · refine ⟨[], [], x :: l, rfl, by simp, by simp, ?_⟩
      intro c hc2
      rcases List.mem_cons.mp hc2 with rfl | hc2
      · exact h
      · by_contra hcon
        have hxc := hx c hc2
        have := bytesCompare_le_trans _ _ _ hxc (not_lt.mp hcon)
        unfold strings.Compare at h
        omega

/-- Records added one after the other under the export name `e` end up in the reverse
order of their insertion, between the records below `e` and the records that are not
below `e`. -/
theorem calls_AddType_reverse (e : String) (before : List Export)
    (hb : ∀ a ∈ before, strings.Compare a.ExportName e < 0)
    (rs : List (String × String × Comment)) (mid : List Export)
    (hm : ∀ b ∈ mid, 0 ≤ strings.Compare b.ExportName e) (td : Exports)
    (htd : td.Types = before ++ mid) :
    td.calls (rs.map (fun r => Call.AddType e r.1 r.2.1 r.2.2)) =
      some { td with Types := before ++
        ((rs.map (fun r => (⟨e, r.1, r.2.1, r.2.2⟩ : Export))).reverse ++ mid) } := by
  induction rs generalizing mid td with
  | nil =>
    simp only [List.map_nil, Exports.calls, List.reverse_nil, List.nil_append, ← htd]
  | cons r rs ih =>
    have hins := insertSortedExport_at_split before mid ⟨e, r.1, r.2.1, r.2.2⟩ hb hm
    have hmid : ∀ b ∈ (⟨e, r.1, r.2.1, r.2.2⟩ : Export) :: mid,
        0 ≤ strings.Compare b.ExportName e := by
      intro b hb2
      rcases List.mem_cons.mp hb2 with rfl | hb2
      · show 0 ≤ bytesCompare (utf8Bytes e) (utf8Bytes e)
        rw [bytesCompare_self]
      · exact hm b hb2
    have hrec := ih ((⟨e, r.1, r.2.1, r.2.2⟩ : Export) :: mid) hmid
      { td with Types := before ++ (⟨e, r.1, r.2.1, r.2.2⟩ : Export) :: mid } rfl
    simp only [List.map_cons, Exports.calls, Exports.call, Exports.AddType, htd, hins, hrec]
    simp

/-- C23: a list `ts` sorted by export name splits, for an export name `e`, into the
records below `e`, the run of the records that compare equal to `e`, which holds every
record of `ts` with the export name `e`, and the records above `e`; `insertSortedExport`
puts a record with the export name `e` right before that run, after the records below
`e`. So on a registry whose `Types` is `ts`, the records that a sequence of `AddType`
calls adds under the export name `e` stand in the reverse order of the calls, before the
run: the order is given by the sequence of the insertions. -/
theorem insertSortedExport_leftmost (ts : List Export) (e : String)
    (hs : sortedByExportName ts) :
    ∃ before run rest, ts = before ++ (run ++ rest) ∧
      (∀ a ∈ before, strings.Compare a.ExportName e < 0) ∧
      (∀ b ∈ run, strings.Compare b.ExportName e = 0) ∧
      (∀ c ∈ rest, 0 < strings.Compare c.ExportName e) ∧
      (∀ x ∈ ts, x.ExportName = e → x ∈ run) ∧
      (∀ n p c, insertSortedExport ts ⟨e, n, p, c⟩ =
        some (before ++ (⟨e, n, p, c⟩ :: (run ++ rest)))) ∧
      (∀ (td : Exports) (rs : List (String × String × Comment)), td.Types = ts →
        td.calls (rs.map (fun r => Call.AddType e r.1 r.2.1 r.2.2)) =
          some { td with Types := before ++
            ((rs.map (fun r => (⟨e, r.1, r.2.1, r.2.2⟩ : Export))).reverse ++
              (run ++ rest)) }) := by
  obtain ⟨before, run, rest, hsplit, hb, hr, hc⟩ := sorted_split ts e hs
  have hmid : ∀ b ∈ run ++ rest, 0 ≤ strings.Compare b.ExportName e := by
    intro b hb2
    rcases List.mem_append.mp hb2 with h | h
    · exact le_of_eq (hr b h).symm
    · exact le_of_lt (hc b h)
  refine ⟨before, run, rest, hsplit, hb, hr, hc, ?_, ?_, ?_⟩
  · intro x hx hxe
    have hself : strings.Compare x.ExportName e = 0 := by
      rw [hxe]
      exact bytesCompare_self _
    rw [hsplit] at hx
    rcases List.mem_append.mp hx with h | h
    · have := hb x h
      omega
    · rcases List.mem_append.mp h with h | h
      · exact h
      · have := hc x h
        omega
  · intro n p c
    rw [hsplit]
    exact insertSortedExport_at_split before (run ++ rest) ⟨e, n, p, c⟩ hb hmid
  · intro td rs htd
    exact calls_AddType_reverse e before hb rs (run ++ rest) hmid td (htd.trans hsplit)

/-- Witness of C23: in the sorted list of the records `A`, `X` (package `a`) and `Z` a
record `X` of the package `b` goes before the record `X` that is there, and a third one,
of the package `c`, before both. -/
theorem insertSortedExport_leftmost_witness :
    sortedByExportName threeTypes ∧
    (∃ before run rest, threeTypes = before ++ (run ++ rest) ∧
      ∀ n p c, insertSortedExport threeTypes ⟨"X", n, p, c⟩ =
        some (before ++ (⟨"X", n, p, c⟩ :: (run ++ rest)))) ∧
    ((({ New "pkg" with Types := threeTypes } : Exports).calls
        [Call.AddType "X" "X" "b" ⟨[], ""⟩, Call.AddType "X" "X" "c" ⟨[], ""⟩]).map
      (fun td : Exports => td.Types.map (fun t => (t.ExportName, t.Package)))) =
      some [("A", "a"), ("X", "c"), ("X", "b"), ("X", "a"), ("Z", "a")] :=
  ⟨by decide,
   (insertSortedExport_leftmost threeTypes "X" (by decide)).elim
     (fun before h => h.elim (fun run h => h.elim (fun rest h =>
       ⟨before, run, rest, h.1, h.2.2.2.2.2.1⟩))),
   by decide⟩

end exports

end Reexporter

namespace Reexporter

namespace exporter

/-! ## `templateMapProperty` -/

/-- An element that is a map without the key `p`, directly or behind a pointer, makes
the body of the loop panic. -/
theorem mapPropertyStep_missing_key (p : String) (result : List Value) (e : reflect.Element)
    (stringKeys : Bool) (entries : List (String × Value))
    (he : e = reflect.Element.value (reflect.Record.map stringKeys entries) ∨
      e = reflect.Element.pointer (some (reflect.Record.map stringKeys entries)))
    (hp : entries.lookup p = none) : mapPropertyStep p result e = none := by
  rcases he with rfl | rfl <;> cases stringKeys <;> simp [mapPropertyStep, hp]

theorem mapPropertyStep_length (p : String) (result out : List Value) (e : reflect.Element)
    (h : mapPropertyStep p result e = some out) : out.length ≤ result.length + 1 := by
  have key : ∀ v : Option reflect.Record,
      (match v with
        | some (.map stringKeys entries) =>
          if stringKeys then
            match entries.lookup p with
            | some x => some (result ++ [x])
            | none => none
          else none
        | some (.struct fields methods) =>
          match fields.find? (fun f => f.Name == p) with
          | some field => if field.exported then some (result ++ [field.value]) else none
          | none =>
            match methods.find? (fun m => m.Name == p) with
            | some m =>
              if m.NumIn == 0 && m.NumOut == 1 then some (result ++ [m.result])
              else some result
            | none => some result
        | _ => some result) = some out → out.length ≤ result.length + 1 := by
    intro v hv
    split at hv
    · split at hv
      · split at hv
        · cases hv
          simp
        · cases hv
      · cases hv
    · split at hv
      · split at hv
        · cases hv
          simp
        · cases hv
      · split at hv
        · split at hv
          · cases hv
            simp
          · cases hv
            omega
        · cases hv
          omega
    · cases hv
      omega
  exact key _ h

theorem mapPropertyLoop_missing_key (p : String) (elems : List reflect.Element)
    (result : List Value) (e : reflect.Element) (he : e ∈ elems)
    (hstep : ∀ r, mapPropertyStep p r e = none) : mapPropertyLoop p elems result = none := by
  induction elems generalizing result with
  | nil => cases he
  | cons x rest ih =>
    unfold mapPropertyLoop
    rcases List.mem_cons.mp he with rfl | hmem
    · rw [hstep result]
    · cases hx : mapPropertyStep p result x with
      | none => rfl
      | some r => exact ih r hmem

theorem mapPropertyLoop_length (p : String) (elems : List reflect.Element)
    (result out : List Value) (h : mapPropertyLoop p elems result = some out) :
    out.length ≤ result.length + elems.length := by
  induction elems generalizing result with
  | nil =>
    simp only [mapPropertyLoop, Option.some.injEq] at h
    subst h
    simp
  | cons x rest ih =>
    unfold mapPropertyLoop at h
    cases hx : mapPropertyStep p result x with
    | none =>
      rw [hx] at h
      cases h
    | some r =>
      rw [hx] at h
      have h1 := mapPropertyStep_length p result r x hx
      have h2 := ih r h
      simp only [List.length_cons]
      omega

/-- C21: on a list with one map-like record that lacks the key `Name`,
`templateMapProperty` panics, while the struct-like record without `Name` contributes
nothing and the record with the key contributes its value; in general the function
panics on every list that holds a map, directly or behind a pointer, without the key
`p`. An input that is not a list gives nothing, and a result, when there is one, is
never longer than the input. -/
theorem templateMapProperty_missing_key_panics :
    templateMapProperty "Name" (reflect.Input.slice
      [reflect.Element.value (reflect.Record.map true [("Other", Value.string "x")])]) =
      none ∧
    templateMapProperty "Name" (reflect.Input.slice
      [reflect.Element.value (reflect.Record.struct [⟨"Other", true, Value.string "x"⟩] [])]) =
      some [] ∧
    templateMapProperty "Name" (reflect.Input.slice
      [reflect.Element.value (reflect.Record.map true [("Name", Value.string "a")]),
       reflect.Element.pointer (some (reflect.Record.struct
         [] [⟨"Name", 0, 1, Value.string "b"⟩]))]) =
      some [Value.string "a", Value.string "b"] ∧
    (∀ (p : String) (elems : List reflect.Element) (stringKeys : Bool)
        (entries : List (String × Value)),
      (reflect.Element.value (reflect.Record.map stringKeys entries) ∈ elems ∨
        reflect.Element.pointer (some (reflect.Record.map stringKeys entries)) ∈ elems) →
      entries.lookup p = none →
      templateMapProperty p (reflect.Input.slice elems) = none) ∧
    (∀ (p : String) (kind : reflect.Kind),
      templateMapProperty p (reflect.Input.other kind) = some []) ∧
    (∀ (p : String) (elems : List reflect.Element) (out : List Value),
      templateMapProperty p (reflect.Input.slice elems) = some out →
      out.length ≤ elems.length) := by
  refine ⟨by decide, by decide, by decide, ?_, fun _ _ => rfl, ?_⟩
  · intro p elems stringKeys entries hmem hp
    rcases hmem with hmem | hmem
    · exact mapPropertyLoop_missing_key p elems [] _ hmem
        (fun r => mapPropertyStep_missing_key p r _ stringKeys entries (Or.inl rfl) hp)
    · exact mapPropertyLoop_missing_key p elems [] _ hmem
        (fun r => mapPropertyStep_missing_key p r _ stringKeys entries (Or.inr rfl) hp)
  · intro p elems out h
    have := mapPropertyLoop_length p elems [] out h
    simpa using this

end exporter

end Reexporter
